import Mathlib

/-!
# Fuzzy matching and ranking (`fuzzy.go`)

A shallow embedding of the matcher `match`/`Matches` and of the ranker `Rank`.

* Strings are represented by their rune sequences (the result of Go's `[]rune(s)`).
* `int` values are unbounded integers; every value computed here is bounded by a small
  multiple of the length of the candidate string.
* The `[]int` slices that `match` builds with `append` are modelled with an explicit store of
  backing arrays, because `match` hands its `matches` slice to the recursive call and keeps
  appending to it afterwards: whether two slices share a backing array decides what the caller
  finally sees.
* Index expressions that would panic when out of range make the embedding return `none`.
* What the Go standard library and runtime contribute (the Unicode case mappings, the capacity
  chosen by `append` when it reallocates, the algorithm behind `sort.Sort`) is not part of the
  repository and is taken as a parameter.
-/

namespace Fuzzy

/-! ## Runes, environment, constants -/

/-- A Unicode code point (Go's `rune`). -/
abbrev Rune := Nat

/-- What the matcher takes from outside `fuzzy.go`: the case mappings `unicode.ToLower` and
`unicode.ToUpper`, the capacity the runtime picks when `append` has to reallocate (as a function
of the old capacity), and the package variable `Separators`, which callers may replace. -/
structure Env where
  toLower : Rune → Rune
  toUpper : Rune → Rune
  grow : Nat → Nat
  Separators : List Rune

/-- The initial value of the package variable `Separators`:
`' ', '_', '-', '.', ',', '/', '\\', '\t'`. -/
def defaultSeparators : List Rune := [32, 95, 45, 46, 44, 47, 92, 9]

def maxRecursions : Int := 10

def sequentialBonus : Int := 15
def separatorBonus : Int := 20
def camelCaseBonus : Int := 20
def firstRuneBonus : Int := 15

def leadingRunePenalty : Int := -5
def maxLeadingRunePenalty : Int := -15
def unmatchedRunePenalty : Int := -1

def isLower (E : Env) (r : Rune) : Bool := r != E.toUpper r

def isUpper (E : Env) (r : Rune) : Bool := r != E.toLower r

/-- The loop of `isSeparator` over `Separators`. -/
def isSeparatorIn : List Rune → Rune → Bool
  | [], _ => false
  | s :: rest, r => if s = r then true else isSeparatorIn rest r

def isSeparator (E : Env) (r : Rune) : Bool := isSeparatorIn E.Separators r

/-! ## Slices of `int` over a store of backing arrays -/

/-- The store: backing array number `a` is the `a`-th entry. -/
abbrev Heap := List (List Nat)

/-- A slice header. All slices of the program start at offset 0 of their backing array.
`ptr = none` is the `nil` slice. -/
structure Slice where
  ptr : Option Nat
  len : Nat
  cap : Nat
deriving DecidableEq, Repr

/-- The `nil` slice. -/
def Slice.nil : Slice := ⟨none, 0, 0⟩

def Slice.isNil (s : Slice) : Bool := s.ptr.isNone

/-- The backing array behind a pointer. -/
def Heap.array (h : Heap) (a : Nat) : List Nat := h.getD a []

/-- The elements of a slice, as the program would read them now. -/
def Heap.read (h : Heap) (s : Slice) : List Nat :=
  match s.ptr with
  | none => []
  | some a => (h.array a).take s.len

/-- The expression `make([]int, 0)`: a non-nil slice of length and capacity 0. -/
def makeEmpty (h : Heap) : Slice × Heap :=
  (⟨some h.length, 0, 0⟩, h ++ [[]])

/-- The reallocating branch of `append(s, x)`: a new backing array receives the elements of `s`
and then `x`; the remaining capacity is zeroed. -/
def appendAlloc (E : Env) (h : Heap) (s : Slice) (x : Nat) : Slice × Heap :=
  let newcap := max (s.len + 1) (E.grow s.cap)
  (⟨some h.length, s.len + 1, newcap⟩,
    h ++ [h.read s ++ x :: List.replicate (newcap - (s.len + 1)) 0])

/-- The expression `append(s, x)`: written in place when the capacity suffices, reallocated
otherwise. -/
def append (E : Env) (h : Heap) (s : Slice) (x : Nat) : Slice × Heap :=
  match s.ptr with
  | some a =>
    if s.len < s.cap then
      (⟨some a, s.len + 1, s.cap⟩, h.set a ((h.array a).set s.len x))
    else appendAlloc E h s x
  | none => appendAlloc E h s x

/-! ## The matcher -/

/-- The three results of `match`. -/
structure Res where
  score : Int
  matches_ : Slice
  matched : Bool
deriving DecidableEq, Repr

/-- The statement `return 0, nil, false`. -/
def Res.fail : Res := ⟨0, Slice.nil, false⟩

/-- The block "Leading rune penality". -/
def leadingPenalty (ms : List Nat) : Int :=
  match ms with
  | [] => 0
  | m0 :: _ =>
    let penalty := leadingRunePenalty * (m0 : Int)
    if penalty < maxLeadingRunePenalty then maxLeadingRunePenalty else penalty

/-- The loop "Ordering bonuses" over the elements of `matches`; `prev` is `matches[i-1]` when
`i > 0`. Reading `originalStr` out of range gives `none`. -/
def bonusLoop (E : Env) (originalStr : List Rune) : Option Nat → List Nat → Int → Option Int
  | _, [], score => some score
  | prev, strIdx :: rest, score =>
    let score1 :=
      match prev with
      | some p => if p + 1 = strIdx then score + sequentialBonus else score
      | none => score
    if strIdx > 0 then
      match originalStr[strIdx - 1]?, originalStr[strIdx]? with
      | some leftNeighbor, some current =>
        let score2 :=
          if isLower E leftNeighbor && isUpper E current then score1 + camelCaseBonus else score1
        let score3 := if isSeparator E leftNeighbor then score2 + separatorBonus else score2
        bonusLoop E originalStr (some strIdx) rest score3
      | _, _ => none
    else bonusLoop E originalStr (some strIdx) rest (score1 + firstRuneBonus)

/-- The score of the eager match: everything between the comment "Calculate the score of the
eager-match" and the final comparison, on the current elements `ms` of `matches`. -/
def eagerScore (E : Env) (originalStr : List Rune) (ms : List Nat) : Option Int :=
  let unmatched : Int := (originalStr.length : Int) - (ms.length : Int)
  bonusLoop E originalStr none ms (leadingPenalty ms + unmatchedRunePenalty * unmatched)

/-- What `match` does once its loop has ended. -/
def finish (E : Env) (originalStr pattern : List Rune) (matches_ : Slice)
    (bestSkippingScore : Int) (bestSkippingMatches : Slice) (h : Heap) : Option (Res × Heap) :=
  if pattern.length ≠ 0 then some (Res.fail, h)
  else
    match eagerScore E originalStr (h.read matches_) with
    | none => none
    | some score =>
      if !bestSkippingMatches.isNil && decide (bestSkippingScore > score) then
        some (⟨bestSkippingScore, bestSkippingMatches, true⟩, h)
      else some (⟨score, matches_, true⟩, h)

/-- The loop of `match` together with what follows it, started from a loop state: the slices
`str` and `pattern`, the budget of the enclosing call, `matches`, and the best skip result so
far. The recursive call `match(pattern, str[1:], originalStr, matches, remainingRecursions-1)`
is the budget test followed by the same loop on `str[1:]` with fresh local variables. -/
def matchLoop (E : Env) (originalStr : List Rune) :
    (str pattern : List Rune) → (remainingRecursions : Int) → (matches_ : Slice) →
    (bestSkippingScore : Int) → (bestSkippingMatches : Slice) → Heap → Option (Res × Heap)
  | [], pattern, _, matches_, bs, bm, h => finish E originalStr pattern matches_ bs bm h
  | _ :: _, [], _, matches_, bs, bm, h => finish E originalStr [] matches_ bs bm h
  | c :: rest, p :: ps, rem, matches_, bs, bm, h =>
    if E.toLower p ≠ E.toLower c then
      matchLoop E originalStr rest (p :: ps) rem matches_ bs bm h
    else
      let skip :=
        if rem - 1 < 0 then some (Res.fail, h)
        else matchLoop E originalStr rest (p :: ps) (rem - 1) matches_ 0 Slice.nil h
      match skip with
      | none => none
      | some (r, h1) =>
        let best : Int × Slice :=
          if r.matched then
            if bm.isNil || decide (r.score > bs) then (r.score, r.matches_) else (bs, bm)
          else (bs, bm)
        let strIdx := originalStr.length - (c :: rest).length
        let grown := append E h1 matches_ strIdx
        matchLoop E originalStr rest ps rem grown.1 best.1 best.2 grown.2

/-- The function `match`. -/
def match_ (E : Env) (pattern str originalStr : List Rune) (allMatches : Slice)
    (remainingRecursions : Int) (h : Heap) : Option (Res × Heap) :=
  if remainingRecursions < 0 then some (Res.fail, h)
  else matchLoop E originalStr str pattern remainingRecursions allMatches 0 Slice.nil h

/-- What a caller of `Matches` observes: the score, the elements of the returned slice
(`none` for a `nil` slice), and the flag. -/
structure MatchResult where
  score : Int
  matchedIndexes : Option (List Nat)
  matched : Bool
deriving DecidableEq, Repr

/-- The elements of a returned slice as the caller sees them. -/
def Heap.observe (h : Heap) (s : Slice) : Option (List Nat) :=
  if s.isNil then none else some (h.read s)

/-- The function `Matches`, run on a store `h`. -/
def MatchesIn (E : Env) (pattern str : List Rune) (h : Heap) : Option (Res × Heap) :=
  let m := makeEmpty h
  match_ E pattern str str m.1 maxRecursions m.2

/-- The function `Matches`, as seen by its caller; `none` would be a run-time panic. -/
def Matches (E : Env) (pattern str : List Rune) : Option MatchResult :=
  match MatchesIn E pattern str [] with
  | none => none
  | some (r, h) => some ⟨r.score, h.observe r.matches_, r.matched⟩

/-! ## The ranker -/

/-- The struct `Match`, with the slice header of `MatchedIndexes`. -/
structure Match where
  Str : List Rune
  Index : Nat
  Score : Int
  MatchedIndexes : Slice
deriving DecidableEq, Repr

/-- The method `matchSort.Less`, on the two elements it compares. -/
def matchSortLess (a b : Match) : Bool := decide (a.Score > b.Score)

/-- The loop of `Rank` over `strings`; `i` is the index of the next string, `res` the matches
collected so far. -/
def rankLoop (E : Env) (patternRunes : List Rune) :
    (strings : List (List Rune)) → (i : Nat) → (res : List Match) → Heap →
      Option (List Match × Heap)
  | [], _, res, h => some (res, h)
  | str :: rest, i, res, h =>
    let m := makeEmpty h
    match match_ E patternRunes str str m.1 maxRecursions m.2 with
    | none => none
    | some (r, h1) =>
      if r.matched then
        rankLoop E patternRunes rest (i + 1) (res ++ [⟨str, i, r.score, r.matches_⟩]) h1
      else rankLoop E patternRunes rest (i + 1) res h1

/-- An element of the result of `Rank` as its caller sees it: `MatchedIndexes` by its
elements. -/
structure RankedMatch where
  Str : List Rune
  Index : Nat
  Score : Int
  MatchedIndexes : Option (List Nat)
deriving DecidableEq, Repr

/-- What the caller reads from a `Match` in the store `h`. -/
def Heap.view (h : Heap) (m : Match) : RankedMatch :=
  ⟨m.Str, m.Index, m.Score, h.observe m.MatchedIndexes⟩

/-- The library routine `sort.Sort` applied to a `matchSort`, as far as its documentation
fixes it: the elements are permuted into ascending order as determined by `Less`, that is,
no element is `Less` than one before it. Stability is not promised. -/
structure Sorter where
  sort : List Match → List Match
  perm : ∀ l, (sort l).Perm l
  sorted : ∀ l, (sort l).Pairwise (fun a b => matchSortLess b a = false)

/-- The function `Rank`, with the effect of `sort.Sort(matchSort(res))` on `res` given by
`sortSort`. The result `none` stands for a run-time panic, or for a run that leaves the part
of the library routine that `sortSort` describes. -/
def RankWith (E : Env) (sortSort : List Match → Option (List Match)) (pattern : List Rune)
    (strings : List (List Rune)) : Option (List RankedMatch) :=
  match rankLoop E pattern strings 0 [] [] with
  | none => none
  | some (res, h) => (sortSort res).map (fun sorted => sorted.map h.view)

/-- The function `Rank`, for any `sort.Sort` that keeps to its documentation. -/
def Rank (E : Env) (S : Sorter) (pattern : List Rune) (strings : List (List Rune)) :
    Option (List RankedMatch) :=
  RankWith E (fun res => some (S.sort res)) pattern strings

/-- The entry that the specification prescribes for the candidate at position `i`: none when
`Matches` does not report a match, otherwise the candidate, its position, and the score and
indexes returned by `Matches`. -/
def rankEntry (E : Env) (pattern : List Rune) (i : Nat) (str : List Rune) : Option RankedMatch :=
  match Matches E pattern str with
  | some r => if r.matched then some ⟨str, i, r.score, r.matchedIndexes⟩ else none
  | none => none

/-- A sorter that meets the contract: insertion sort by descending score. -/
def insertionSorter : Sorter where
  sort := List.insertionSort (fun a b => a.Score ≥ b.Score)
  perm := List.perm_insertionSort _
  sorted := fun l => by
    haveI : IsTotal Match (fun a b => a.Score ≥ b.Score) :=
      ⟨fun a b => le_total b.Score a.Score⟩
    haveI : IsTrans Match (fun a b => a.Score ≥ b.Score) :=
      ⟨fun a b c hab hbc => le_trans hbc hab⟩
    have h := List.sorted_insertionSort (fun a b : Match => a.Score ≥ b.Score) l
    refine List.Pairwise.imp ?_ h
    intro a b hab
    simp only [matchSortLess, decide_eq_false_iff_not, not_lt]
    exact hab

/-- Another sorter that meets the contract: insertion sort by descending score of the reversed
slice. Among equal scores it puts later elements first. -/
def reversingSorter : Sorter where
  sort := fun l => insertionSorter.sort l.reverse
  perm := fun l => (insertionSorter.perm l.reverse).trans (List.reverse_perm l)
  sorted := fun l => insertionSorter.sorted l.reverse

/-! ## `sort.Sort` as implemented by the Go standard library

The routine behind `sort.Sort` since Go 1.19 is a pattern-defeating quicksort (`pdqsort` in
package `sort`). It is not part of the repository. The definitions below follow the library
functions on slices of fewer than 50 elements, as long as the partitions stay balanced: the
fallback to `heapSort`, the function `breakPatterns`, the ninther of `choosePivot` and the
shifting in `partialInsertionSort` (all of them used only on longer or badly partitioned
slices) are not described, and a run that would need them gives `none`. -/

/-- The call `data.Swap(i, j)`. -/
def sortSwap (data : List Match) (i j : Nat) : Option (List Match) :=
  match data[i]?, data[j]? with
  | some x, some y => some ((data.set i y).set j x)
  | _, _ => none

/-- The call `data.Less(i, j)`. -/
def sortLess (data : List Match) (i j : Nat) : Option Bool :=
  match data[i]?, data[j]? with
  | some x, some y => some (matchSortLess x y)
  | _, _ => none

/-- The inner loop of `insertionSort`: `for j := i; j > a && data.Less(j, j-1); j--`. -/
def insertionInner (a : Nat) : (j : Nat) → List Match → Option (List Match)
  | 0, data => some data
  | j + 1, data =>
    if j + 1 > a then
      match sortLess data (j + 1) j with
      | some true =>
        match sortSwap data (j + 1) j with
        | some data1 => insertionInner a j data1
        | none => none
      | some false => some data
      | none => none
    else some data

/-- The outer loop of `insertionSort`, `for i := a + 1; i < b; i++`, with `n` rounds left. -/
def insertionOuter (a : Nat) : (n i : Nat) → List Match → Option (List Match)
  | 0, _, data => some data
  | n + 1, i, data =>
    match insertionInner a i data with
    | some data1 => insertionOuter a n (i + 1) data1
    | none => none

/-- The function `insertionSort(data, a, b)`. -/
def insertionSort (data : List Match) (a b : Nat) : Option (List Match) :=
  insertionOuter a (b - (a + 1)) (a + 1) data

/-- The type `sortedHint`. -/
inductive sortedHint where
  | unknownHint
  | increasingHint
  | decreasingHint
deriving DecidableEq, Repr

/-- The function `order2`; the counter `*swaps` is passed through. -/
def order2 (data : List Match) (a b swaps : Nat) : Option (Nat × Nat × Nat) :=
  match sortLess data b a with
  | some true => some (b, a, swaps + 1)
  | some false => some (a, b, swaps)
  | none => none

/-- The function `median`. -/
def median (data : List Match) (a b c swaps : Nat) : Option (Nat × Nat) :=
  match order2 data a b swaps with
  | none => none
  | some (a1, b1, swaps1) =>
    match order2 data b1 c swaps1 with
    | none => none
    | some (b2, _, swaps2) =>
      match order2 data a1 b2 swaps2 with
      | none => none
      | some (_, b3, swaps3) => some (b3, swaps3)

/-- The function `choosePivot` on fewer than `shortestNinther = 50` elements. -/
def choosePivot (data : List Match) (a b : Nat) : Option (Nat × sortedHint) :=
  let l := b - a
  let i := a + l / 4 * 1
  let j := a + l / 4 * 2
  let k := a + l / 4 * 3
  if l ≥ 50 then none
  else
    let picked : Option (Nat × Nat) := if l ≥ 8 then median data i j k 0 else some (j, 0)
    match picked with
    | none => none
    | some (j1, swaps) =>
      if swaps = 0 then some (j1, sortedHint.increasingHint)
      else if swaps = 4 * 3 then some (j1, sortedHint.decreasingHint)
      else some (j1, sortedHint.unknownHint)

/-- The loop of `reverseRange`, with `n` rounds of fuel. -/
def reverseLoop : (n i j : Nat) → List Match → Option (List Match)
  | 0, _, _, data => some data
  | n + 1, i, j, data =>
    if i < j then
      match sortSwap data i j with
      | some data1 => reverseLoop n (i + 1) (j - 1) data1
      | none => none
    else some data

/-- The function `reverseRange(data, a, b)`. -/
def reverseRange (data : List Match) (a b : Nat) : Option (List Match) :=
  reverseLoop (b - a) a (b - 1) data

/-- The loop `for i < b && !data.Less(i, i-1) { i++ }` of `partialInsertionSort`; the result is
the final `i`. -/
def sortedPrefix (data : List Match) (b : Nat) : (n i : Nat) → Option Nat
  | 0, i => some i
  | n + 1, i =>
    if i < b then
      match sortLess data i (i - 1) with
      | some false => sortedPrefix data b n (i + 1)
      | some true => some i
      | none => none
    else some i

/-- The function `partialInsertionSort` on fewer than `shortestShifting = 50` elements, where
it only tells whether the slice is sorted already. -/
def partialInsertionSort (data : List Match) (a b : Nat) : Option Bool :=
  match sortedPrefix data b (b - a) (a + 1) with
  | none => none
  | some i => if i = b then some true else if b - a < 50 then some false else none

/-- The loop `for i <= j && data.Less(i, a) { i++ }` of `partition`. -/
def scanUp (data : List Match) (a j : Nat) : (n i : Nat) → Option Nat
  | 0, i => some i
  | n + 1, i =>
    if i ≤ j then
      match sortLess data i a with
      | some true => scanUp data a j n (i + 1)
      | some false => some i
      | none => none
    else some i

/-- The loop `for i <= j && !data.Less(j, a) { j-- }` of `partition`; positions are kept one
higher (`j1 = j + 1`) so that `j = -1` can be represented. -/
def scanDown (data : List Match) (a i : Nat) : (j1 : Nat) → Option Nat
  | 0 => some 0
  | j + 1 =>
    if i ≤ j then
      match sortLess data j a with
      | some false => scanDown data a i j
      | some true => some (j + 1)
      | none => none
    else some (j + 1)

/-- The main loop of `partition`, after the first exchange; `j1 = j + 1`, and `j` never falls
below `a` (a run with `j1 = 0` is not described). The result is the final `j + 1` and the
slice. -/
def partitionLoop (a : Nat) : (n i j1 : Nat) → List Match → Option (Nat × List Match)
  | 0, _, _, _ => none
  | n + 1, i, j1, data =>
    if j1 = 0 then none
    else
      match scanUp data a (j1 - 1) j1 i with
      | none => none
      | some i1 =>
        match scanDown data a i1 j1 with
        | none => none
        | some j2 =>
          if i1 + 1 > j2 then some (j2, data)
          else
            match sortSwap data i1 (j2 - 1) with
            | none => none
            | some data1 => partitionLoop a n (i1 + 1) (j2 - 1) data1

/-- The function `partition(data, a, b, pivot)`: the new position of the pivot and whether the
slice was partitioned already. -/
def partition (data : List Match) (a b pivot : Nat) : Option (Nat × Bool × List Match) :=
  match sortSwap data a pivot with
  | none => none
  | some data1 =>
    match scanUp data1 a (b - 1) (b - a) (a + 1) with
    | none => none
    | some i =>
      match scanDown data1 a i b with
      | none => none
      | some j1 =>
        if i + 1 > j1 then
          match sortSwap data1 (j1 - 1) a with
          | none => none
          | some data2 => some (j1 - 1, true, data2)
        else
          match sortSwap data1 i (j1 - 1) with
          | none => none
          | some data2 =>
            match partitionLoop a (b - a) (i + 1) (j1 - 1) data2 with
            | none => none
            | some (j2, data3) =>
              match sortSwap data3 (j2 - 1) a with
              | none => none
              | some data4 => some (j2 - 1, false, data4)

/-- The loop `for i <= j && !data.Less(a, i) { i++ }` of `partitionEqual`. -/
def scanUpEqual (data : List Match) (a j : Nat) : (n i : Nat) → Option Nat
  | 0, i => some i
  | n + 1, i =>
    if i ≤ j then
      match sortLess data a i with
      | some false => scanUpEqual data a j n (i + 1)
      | some true => some i
      | none => none
    else some i

/-- The loop `for i <= j && data.Less(a, j) { j-- }` of `partitionEqual`; `j1 = j + 1`. -/
def scanDownEqual (data : List Match) (a i : Nat) : (j1 : Nat) → Option Nat
  | 0 => some 0
  | j + 1 =>
    if i ≤ j then
      match sortLess data a j with
      | some true => scanDownEqual data a i j
      | some false => some (j + 1)
      | none => none
    else some (j + 1)

/-- The loop of `partitionEqual`; the result is the final `i` and the slice. -/
def partitionEqualLoop (a : Nat) : (n i j1 : Nat) → List Match → Option (Nat × List Match)
  | 0, _, _, _ => none
  | n + 1, i, j1, data =>
    if j1 = 0 then none
    else
      match scanUpEqual data a (j1 - 1) j1 i with
      | none => none
      | some i1 =>
        match scanDownEqual data a i1 j1 with
        | none => none
        | some j2 =>
          if i1 + 1 > j2 then some (i1, data)
          else
            match sortSwap data i1 (j2 - 1) with
            | none => none
            | some data1 => partitionEqualLoop a n (i1 + 1) (j2 - 1) data1

/-- The function `partitionEqual(data, a, b, pivot)`. -/
def partitionEqual (data : List Match) (a b pivot : Nat) : Option (Nat × List Match) :=
  match sortSwap data a pivot with
  | none => none
  | some data1 => partitionEqualLoop a (b - a + 1) (a + 1) b data1

/-- The function `pdqsort(data, a, b, limit)`, entered in its loop with the current values of
`wasBalanced` and `wasPartitioned`; `fuel` bounds the number of rounds and nested calls. -/
def pdqsort : (fuel : Nat) → List Match → (a b limit : Nat) →
    (wasBalanced wasPartitioned : Bool) → Option (List Match)
  | 0, _, _, _, _, _, _ => none
  | fuel + 1, data, a, b, limit, wasBalanced, wasPartitioned =>
    let length := b - a
    if length ≤ 12 then insertionSort data a b
    else if limit = 0 then none
    else if !wasBalanced then none
    else
      match choosePivot data a b with
      | none => none
      | some (pivot0, hint0) =>
        let reversed : Option (List Match × Nat × sortedHint) :=
          if hint0 = sortedHint.decreasingHint then
            (reverseRange data a b).map
              (fun d => (d, (b - 1) - (pivot0 - a), sortedHint.increasingHint))
          else some (data, pivot0, hint0)
        match reversed with
        | none => none
        | some (data1, pivot, hint) =>
          let isSorted : Option Bool :=
            if wasBalanced && wasPartitioned && hint = sortedHint.increasingHint then
              partialInsertionSort data1 a b
            else some false
          match isSorted with
          | none => none
          | some true => some data1
          | some false =>
            let equalSplit : Option Bool :=
              if a > 0 then (sortLess data1 (a - 1) pivot).map (fun l => !l) else some false
            match equalSplit with
            | none => none
            | some true =>
              match partitionEqual data1 a b pivot with
              | none => none
              | some (mid, data2) => pdqsort fuel data2 mid b limit wasBalanced wasPartitioned
            | some false =>
              match partition data1 a b pivot with
              | none => none
              | some (mid, alreadyPartitioned, data2) =>
                let leftLen := mid - a
                let rightLen := b - mid
                let balanceThreshold := length / 8
                if leftLen < rightLen then
                  match pdqsort fuel data2 a mid limit true true with
                  | none => none
                  | some data3 =>
                    pdqsort fuel data3 (mid + 1) b limit (decide (leftLen ≥ balanceThreshold))
                      alreadyPartitioned
                else
                  match pdqsort fuel data2 (mid + 1) b limit true true with
                  | none => none
                  | some data3 =>
                    pdqsort fuel data3 a mid limit (decide (rightLen ≥ balanceThreshold))
                      alreadyPartitioned

/-- The number of bits of `n` (`bits.Len`), for `n` below `2 ^ fuel`. -/
def bitsLen : (fuel n : Nat) → Nat
  | 0, _ => 0
  | fuel + 1, n => if n = 0 then 0 else bitsLen fuel (n / 2) + 1

/-- The function `sort.Sort` on a `matchSort`. -/
def sortSort (data : List Match) : Option (List Match) :=
  let n := data.length
  if n ≤ 1 then some data
  else pdqsort n data 0 n (bitsLen n n) true true

/-! ## Notions of the specification -/

/-- A valid alignment of `pattern` in `str`: one position per pattern rune, the positions
strictly increasing, each a position of `str` whose rune equals the pattern rune up to case. -/
def IsAlignment (E : Env) (pattern str : List Rune) (idxs : List Nat) : Prop :=
  idxs.length = pattern.length ∧
  (∀ (j k a b : Nat), j < k → idxs[j]? = some a → idxs[k]? = some b → a < b) ∧
  ∀ (k i : Nat), idxs[k]? = some i →
    i < str.length ∧ ∃ c p, str[i]? = some c ∧ pattern[k]? = some p ∧ E.toLower c = E.toLower p

/-- The value the scoring rules assign to an index sequence on `str`: the leading-rune penalty
`max(-5*idxs[0], -15)` when there is a match, `-1` for every unmatched rune, `+15` when the
first rune of `str` is matched, `+15` for every index that follows its predecessor directly,
`+20` for every index whose left neighbour is lower case while its own rune is upper case, and
`+20` for every index whose left neighbour is a separator. -/
def ruleScore (E : Env) (str : List Rune) (idxs : List Nat) : Int :=
  (match idxs.head? with
    | some i0 => max (-5 * (i0 : Int)) (-15)
    | none => 0)
  - ((str.length : Int) - (idxs.length : Int))
  + (if idxs.head? = some 0 then 15 else 0)
  + 15 * ((idxs.zip idxs.tail).countP (fun ab => ab.2 == ab.1 + 1) : Nat)
  + 20 * (idxs.countP (fun i =>
      decide (i > 0) && isLower E (str.getD (i - 1) 0) && isUpper E (str.getD i 0)) : Nat)
  + 20 * (idxs.countP (fun i => decide (i > 0) && decide (str.getD (i - 1) 0 ∈ E.Separators)) : Nat)

/-! ## A concrete environment for evaluation -/

/-- Go's `unicode.ToLower` on the runes used in the evaluations of this development: the
ASCII branch of the library function; the runes above ASCII used here (U+0131) are their own
lower case. -/
def goToLower (r : Rune) : Rune :=
  if r ≤ 0x7F then (if 0x41 ≤ r ∧ r ≤ 0x5A then r + 0x20 else r) else r

/-- Go's `unicode.ToUpper` on the runes used in the evaluations of this development: the
ASCII branch of the library function, and the upper case `I` of the dotless `ı` (U+0131). -/
def goToUpper (r : Rune) : Rune :=
  if r ≤ 0x7F then (if 0x61 ≤ r ∧ r ≤ 0x7A then r - 0x20 else r)
  else if r = 0x131 then 0x49 else r

/-- The environment of the evaluations: the case mappings above, the capacity doubling that
the Go runtime applies to small slices (capacities 1, 2, 4, 8, ...), and the default
separators. -/
def goEnv : Env := ⟨goToLower, goToUpper, fun c => 2 * c, defaultSeparators⟩

/-- The pattern `q` is obtained from the pattern `p` by replacing any of its runes by that
rune's upper-case or lower-case form. -/
def CasingVariant (E : Env) (p q : List Rune) : Prop :=
  List.Forall₂ (fun a b => b = a ∨ b = E.toUpper a ∨ b = E.toLower a) p q

/-! ## Invariants used in the proofs -/

/-- A non-nil slice whose backing array exists in the store and has exactly the slice's
capacity. -/
def Heap.Valid (h : Heap) (s : Slice) : Prop :=
  ∃ a, s.ptr = some a ∧ a < h.length ∧ (h.array a).length = s.cap ∧ s.len ≤ s.cap

/-- From store `h` to store `h2` no array was dropped or resized, and an array of `h` was
written to only if it is the one behind `p`, and then only at positions from `n` on. -/
def Frame (h h2 : Heap) (p : Option Nat) (n : Nat) : Prop :=
  h.length ≤ h2.length ∧
  ∀ a, a < h.length →
    (h2.array a).length = (h.array a).length ∧
    (p ≠ some a → h2.array a = h.array a) ∧
    (h2.array a).take n = (h.array a).take n

/-- The indexes `idxs` place the runes `ps` in `originalStr`: one index per rune, the rune found
there equal up to case, and the indexes strictly increasing. -/
def Placed (E : Env) (originalStr : List Rune) (idxs : List Nat) (ps : List Rune) : Prop :=
  List.Forall₂ (fun i p => ∃ c, originalStr[i]? = some c ∧ E.toLower p = E.toLower c) idxs ps ∧
  idxs.Pairwise (· < ·)

/-- The best skip result kept by the loop of `match` is either still `nil`, or a slice of the
full pattern length that shares the backing array of `matches` or holds a complete placement
of the pattern `P`; its score is the value that the scoring rules assign to some complete
placement of `P`. -/
def BestOk (E : Env) (originalStr P : List Rune) (h : Heap) (m : Slice) (bs : Int)
    (bm : Slice) : Prop :=
  bm.ptr = none ∨
    (h.Valid bm ∧ bm.len = P.length ∧ (bm.ptr = m.ptr ∨ Placed E originalStr (h.read bm) P) ∧
      ∃ idxs, Placed E originalStr idxs P ∧ bs = ruleScore E originalStr idxs)

/-- Whether the eager scan of `match` uses up the pattern: the loop of `match` without its
recursive calls, reduced to the test `len(pattern) != 0` after it. -/
def eagerMatched (E : Env) : (str pattern : List Rune) → Bool
  | _, [] => true
  | [], _ :: _ => false
  | c :: rest, p :: ps =>
    if E.toLower p ≠ E.toLower c then eagerMatched E rest (p :: ps) else eagerMatched E rest ps

/-- The eager alignment: every pattern rune is placed at the first rune of the string, after
the previous placement, that equals it up to case. `n` is the position of the head of `str`
in the whole string. -/
def eagerIdxs (E : Env) : (n : Nat) → (str pattern : List Rune) → List Nat
  | _, _, [] => []
  | _, [], _ :: _ => []
  | n, c :: rest, p :: ps =>
    if E.toLower p ≠ E.toLower c then eagerIdxs E (n + 1) rest (p :: ps)
    else n :: eagerIdxs E (n + 1) rest ps

/-- Moving a slice to a store that has `n` more arrays in front. -/
def Slice.shift (n : Nat) (s : Slice) : Slice := ⟨s.ptr.map (· + n), s.len, s.cap⟩

def Res.shift (n : Nat) (r : Res) : Res := ⟨r.score, r.matches_.shift n, r.matched⟩

/-- The result of `match` after one more unmatched rune: a successful result loses one point,
a failed one stays as it is. -/
def Res.charge (r : Res) : Res :=
  ⟨if r.matched then r.score - 1 else r.score, r.matches_, r.matched⟩

/-- A call of `match`, as recorded by `matchLoopT`: how many calls are active when it starts,
itself included, and its arguments `remainingRecursions` and `len(str)`. -/
structure Call where
  level : Nat
  budget : Int
  strLen : Nat
deriving DecidableEq, Repr

/-- The loop of `match` with a record of the calls of `match` made during it, in the order in
which they start. `level` is the number of calls active while this loop runs; a call made
from this loop starts at `level + 1`. -/
def matchLoopT (E : Env) (originalStr : List Rune) (level : Nat) :
    (str pattern : List Rune) → (remainingRecursions : Int) → (matches_ : Slice) →
    (bestSkippingScore : Int) → (bestSkippingMatches : Slice) → Heap →
    Option ((Res × Heap) × List Call)
  | [], pattern, _, matches_, bs, bm, h =>
    (finish E originalStr pattern matches_ bs bm h).map (fun x => (x, []))
  | _ :: _, [], _, matches_, bs, bm, h =>
    (finish E originalStr [] matches_ bs bm h).map (fun x => (x, []))
  | c :: rest, p :: ps, rem, matches_, bs, bm, h =>
    if E.toLower p ≠ E.toLower c then
      matchLoopT E originalStr level rest (p :: ps) rem matches_ bs bm h
    else
      let call : Call := ⟨level + 1, rem - 1, rest.length⟩
      let skip : Option ((Res × Heap) × List Call) :=
        if rem - 1 < 0 then some ((Res.fail, h), [call])
        else
          (matchLoopT E originalStr (level + 1) rest (p :: ps) (rem - 1) matches_ 0 Slice.nil
            h).map (fun x => (x.1, call :: x.2))
      match skip with
      | none => none
      | some ((r, h1), calls) =>
        let best : Int × Slice :=
          if r.matched then
            if bm.isNil || decide (r.score > bs) then (r.score, r.matches_) else (bs, bm)
          else (bs, bm)
        let strIdx := originalStr.length - (c :: rest).length
        let grown := append E h1 matches_ strIdx
        (matchLoopT E originalStr level rest ps rem grown.1 best.1 best.2 grown.2).map
          (fun x => (x.1, calls ++ x.2))

/-- The calls of `match` during `Matches(pattern, str)`, the call made by `Matches` first. -/
def MatchesCalls (E : Env) (pattern str : List Rune) : Option (List Call) :=
  let m := makeEmpty []
  let call : Call := ⟨1, maxRecursions, str.length⟩
  if maxRecursions < 0 then some [call]
  else
    (matchLoopT E str 1 str pattern maxRecursions m.1 0 Slice.nil m.2).map
      (fun x => call :: x.2)

/-! ## Store lemmas -/

theorem Heap.array_append_left (h t : Heap) (a : Nat) (ha : a < h.length) :
    Heap.array (h ++ t) a = Heap.array h a := by
  simp [Heap.array, List.getD, List.getElem?_append_left ha]

theorem Heap.array_append_new (h : Heap) (v : List Nat) :
    Heap.array (h ++ [v]) h.length = v := by
  simp [Heap.array, List.getD]

theorem Heap.array_set_self (h : Heap) (a : Nat) (v : List Nat) (ha : a < h.length) :
    Heap.array (h.set a v) a = v := by
  simp [Heap.array, List.getD, ha]

theorem Heap.array_set_other (h : Heap) (a b : Nat) (v : List Nat) (hab : a ≠ b) :
    Heap.array (h.set a v) b = Heap.array h b := by
  simp [Heap.array, List.getD, List.getElem?_set_ne hab]

theorem Frame.refl (h : Heap) (p : Option Nat) (n : Nat) : Frame h h p n :=
  ⟨le_rfl, fun _ _ => ⟨rfl, fun _ => rfl, rfl⟩⟩

theorem Frame.trans {h h1 h2 : Heap} {p q : Option Nat} {n k : Nat}
    (f1 : Frame h h1 p n) (f2 : Frame h1 h2 q k)
    (hq : (q = p ∧ n ≤ k) ∨ (∀ a, q = some a → h.length ≤ a)) : Frame h h2 p n := by
  refine ⟨le_trans f1.1 f2.1, fun a ha => ?_⟩
  obtain ⟨s1, o1, k1⟩ := f1.2 a ha
  obtain ⟨s2, o2, k2⟩ := f2.2 a (lt_of_lt_of_le ha f1.1)
  refine ⟨s2.trans s1, fun hp => ?_, ?_⟩
  · rw [← o1 hp]
    apply o2
    rcases hq with ⟨rfl, _⟩ | hq
    · exact hp
    · intro hqa
      exact absurd (hq a hqa) (not_le.mpr ha)
  · rcases hq with ⟨rfl, hnk⟩ | hq
    · rw [← k1]
      have := congrArg (List.take n) k2
      simpa [List.take_take, min_eq_left hnk] using this
    · rw [← k1, o2]
      intro hqa
      exact absurd (hq a hqa) (not_le.mpr ha)

theorem Heap.Valid.frame {h h2 : Heap} {p : Option Nat} {n : Nat} {s : Slice}
    (hv : h.Valid s) (f : Frame h h2 p n) : h2.Valid s := by
  obtain ⟨a, hp, ha, hl, hc⟩ := hv
  exact ⟨a, hp, lt_of_lt_of_le ha f.1, ((f.2 a ha).1).trans hl, hc⟩

/-- A slice on another array than the written one reads the same afterwards. -/
theorem Heap.read_frame_other {h h2 : Heap} {p : Option Nat} {n : Nat} {s : Slice}
    (hv : h.Valid s) (f : Frame h h2 p n) (hne : s.ptr ≠ p) : h2.read s = h.read s := by
  obtain ⟨a, hp, ha, -, -⟩ := hv
  have := (f.2 a ha).2.1 (by rw [← hp]; exact fun e => hne e.symm)
  simp [Heap.read, hp, this]

/-- A slice on the written array whose length stays below the first written position reads
the same afterwards. -/
theorem Heap.read_frame_keep {h h2 : Heap} {p : Option Nat} {n : Nat} {s : Slice}
    (hv : h.Valid s) (f : Frame h h2 p n) (hn : s.len ≤ n) : h2.read s = h.read s := by
  obtain ⟨a, hp, ha, -, -⟩ := hv
  have := congrArg (List.take s.len) (f.2 a ha).2.2
  simpa [Heap.read, hp, List.take_take, min_eq_left hn] using this

theorem Heap.Valid.read_length {h : Heap} {s : Slice} (hv : h.Valid s) :
    (h.read s).length = s.len := by
  obtain ⟨a, hp, -, hl, hc⟩ := hv
  simp [Heap.read, hp, hl, hc]

theorem take_set_ge {α : Type} (l : List α) (n k : Nat) (x : α) (hk : k ≤ n) :
    (l.set n x).take k = l.take k := by
  apply List.ext_getElem?
  intro i
  rw [List.getElem?_take, List.getElem?_take]
  split
  · rw [List.getElem?_set_ne (by omega)]
  · rfl

theorem take_succ_set {α : Type} (l : List α) (n : Nat) (x : α) (hn : n < l.length) :
    (l.set n x).take (n + 1) = l.take n ++ [x] := by
  rw [List.take_succ, take_set_ge l n n x le_rfl]
  simp [hn]

/-- What `append` does to a valid slice and to the store. -/
theorem append_spec (E : Env) (h : Heap) (m : Slice) (x : Nat) (hv : h.Valid m) :
    (append E h m x).2.Valid (append E h m x).1 ∧
    (append E h m x).1.len = m.len + 1 ∧
    (append E h m x).2.read (append E h m x).1 = h.read m ++ [x] ∧
    Frame h (append E h m x).2 m.ptr m.len ∧
    (((append E h m x).1.ptr = m.ptr ∧ m.len < m.cap) ∨
      ((append E h m x).1.ptr = some h.length ∧ m.cap ≤ m.len)) := by
  obtain ⟨a, hp, ha, hl, hc⟩ := hv
  by_cases hlt : m.len < m.cap
  · -- written in place
    have e : append E h m x = (⟨some a, m.len + 1, m.cap⟩, h.set a ((h.array a).set m.len x)) := by
      simp [append, hp, hlt]
    rw [e]
    refine ⟨⟨a, rfl, by simpa using ha, ?_, hlt⟩, rfl, ?_, ?_, Or.inl ⟨hp.symm, hlt⟩⟩
    · simp [Heap.array_set_self h a _ ha, hl]
    · simp only [Heap.read, hp, Heap.array_set_self h a _ ha]
      exact take_succ_set _ _ _ (by rw [hl]; exact hlt)
    · refine ⟨by simp, fun b hb => ?_⟩
      by_cases hab : a = b
      · subst hab
        refine ⟨by simp [Heap.array_set_self h a _ ha], fun hne => absurd hp hne, ?_⟩
        rw [Heap.array_set_self h a _ ha]
        exact take_set_ge _ _ _ _ le_rfl
      · rw [Heap.array_set_other h a b _ hab]
        exact ⟨rfl, fun _ => rfl, rfl⟩
  · -- reallocated
    have e : append E h m x = appendAlloc E h m x := by
      simp [append, hp, hlt]
    rw [e]
    have hlen : m.len = m.cap := le_antisymm hc (not_lt.mp hlt)
    have hr : (h.read m).length = m.len := by simp [Heap.read, hp, hl, hc]
    refine ⟨⟨h.length, rfl, by simp [appendAlloc], ?_, by simp [appendAlloc]⟩, rfl, ?_, ?_,
      Or.inr ⟨rfl, not_lt.mp hlt⟩⟩
    · simp only [appendAlloc, Heap.array_append_new]
      simp [hr]
      omega
    · simp only [appendAlloc, Heap.read, Heap.array_append_new]
      have : (h.read m ++ [x]).length = m.len + 1 := by simp [hr]
      change List.take (m.len + 1) (h.read m ++ x :: List.replicate _ 0) = h.read m ++ [x]
      rw [show h.read m ++ x :: List.replicate (max (m.len + 1) (E.grow m.cap) - (m.len + 1)) 0
          = (h.read m ++ [x]) ++ List.replicate (max (m.len + 1) (E.grow m.cap) - (m.len + 1)) 0
          by simp]
      rw [List.take_append_of_le_length (by omega), List.take_of_length_le (by omega)]
    · refine ⟨by simp [appendAlloc], fun b hb => ?_⟩
      simp only [appendAlloc, Heap.array_append_left h _ b hb]
      exact ⟨trivial, fun _ => trivial, trivial⟩

/-! ## The matcher never reads out of range -/

theorem bonusLoop_isSome (E : Env) (O : List Rune) :
    ∀ (ms : List Nat) (prev : Option Nat) (score : Int), (∀ i ∈ ms, i < O.length) →
      ∃ v, bonusLoop E O prev ms score = some v := by
  intro ms
  induction ms with
  | nil => intro prev score _; exact ⟨score, rfl⟩
  | cons i rest ih =>
    intro prev score hb
    have hi : i < O.length := hb i (List.mem_cons_self _ _)
    have hrest : ∀ j ∈ rest, j < O.length := fun j hj => hb j (List.mem_cons_of_mem _ hj)
    by_cases h0 : i > 0
    · obtain ⟨y1, h1⟩ : ∃ y, O[i - 1]? = some y :=
        ⟨_, List.getElem?_eq_getElem (show i - 1 < O.length by omega)⟩
      obtain ⟨y2, h2⟩ : ∃ y, O[i]? = some y := ⟨_, List.getElem?_eq_getElem hi⟩
      simp only [bonusLoop, h0, if_true, h1, h2]
      exact ih _ _ hrest
    · simp only [bonusLoop, h0, if_false]
      exact ih _ _ hrest

theorem Placed.lt_length {E : Env} {O : List Rune} {idxs : List Nat} {ps : List Rune}
    (hp : Placed E O idxs ps) : ∀ i ∈ idxs, i < O.length := by
  obtain ⟨hf, -⟩ := hp
  induction hf with
  | nil => intro i hi; cases hi
  | cons hab _ ih =>
    intro i hi
    rcases List.mem_cons.mp hi with rfl | hi
    · obtain ⟨c, hc, -⟩ := hab
      exact (List.getElem?_eq_some_iff.mp hc).1
    · exact ih i hi

theorem Placed.length_eq {E : Env} {O : List Rune} {idxs : List Nat} {ps : List Rune}
    (hp : Placed E O idxs ps) : idxs.length = ps.length := hp.1.length_eq

theorem eagerScore_isSome (E : Env) (O : List Rune) (ms : List Nat) (hb : ∀ i ∈ ms, i < O.length) :
    ∃ v, eagerScore E O ms = some v :=
  bonusLoop_isSome E O ms none _ hb

/-! ## The score computed by `match` and the scoring rules -/

/-- The loop "Ordering bonuses" adds, to the score it starts from, the sequential bonus of
the first index after `prev`, the sequential bonuses within the list, the first-rune bonus of
every index 0, and the camel-case and separator bonuses. -/
theorem bonusLoop_eq (E : Env) (O : List Rune) :
    ∀ (l : List Nat) (prev : Option Nat) (s : Int), (∀ i ∈ l, i < O.length) →
      bonusLoop E O prev l s = some (s
        + (match prev, l.head? with
            | some p, some i => if p + 1 = i then 15 else 0
            | _, _ => 0)
        + 15 * ((l.zip l.tail).countP (fun ab => ab.2 == ab.1 + 1) : Nat)
        + 15 * (l.countP (fun i => i == 0) : Nat)
        + 20 * (l.countP (fun i =>
            decide (i > 0) && isLower E (O.getD (i - 1) 0) && isUpper E (O.getD i 0)) : Nat)
        + 20 * (l.countP (fun i => decide (i > 0) && decide (O.getD (i - 1) 0 ∈ E.Separators)) : Nat))
      := by
  intro l
  induction l with
  | nil =>
    intro prev s _
    cases prev <;> simp [bonusLoop]
  | cons i rest ih =>
    intro prev s hb
    have hi : i < O.length := hb i (List.mem_cons_self _ _)
    have hrest : ∀ j ∈ rest, j < O.length := fun j hj => hb j (List.mem_cons_of_mem _ hj)
    have hzip : ((i :: rest).zip (i :: rest).tail).countP (fun ab => ab.2 == ab.1 + 1) =
        (match rest.head? with
          | some j => if i + 1 = j then 1 else 0
          | none => 0) + (rest.zip rest.tail).countP (fun ab => ab.2 == ab.1 + 1) := by
      cases rest with
      | nil => simp
      | cons j rest2 =>
        simp only [List.tail_cons, List.zip_cons_cons, List.countP_cons, List.head?_cons]
        by_cases hj : i + 1 = j
        · simp [hj]; omega
        · have : ¬ j = i + 1 := fun e => hj e.symm
          simp [hj, this]
    have hsep : ∀ r, isSeparator E r = decide (r ∈ E.Separators) := by
      intro r
      unfold isSeparator
      induction E.Separators with
      | nil => simp [isSeparatorIn]
      | cons x xs ihx =>
        by_cases hx : x = r
        · simp [isSeparatorIn, hx]
        · have : ¬ r = x := fun e => hx e.symm
          simp [isSeparatorIn, hx, this, ihx]
    by_cases h0 : i > 0
    · obtain ⟨y1, h1⟩ : ∃ y, O[i - 1]? = some y :=
        ⟨_, List.getElem?_eq_getElem (show i - 1 < O.length by omega)⟩
      obtain ⟨y2, h2⟩ : ∃ y, O[i]? = some y := ⟨_, List.getElem?_eq_getElem hi⟩
      have g1 : O.getD (i - 1) 0 = y1 := by simp [List.getD, h1]
      have g2 : O.getD i 0 = y2 := by simp [List.getD, h2]
      have hne : ¬ i = 0 := by omega
      simp only [bonusLoop, h0, if_true, h1, h2]
      rw [ih _ _ hrest, hzip]
      simp only [List.countP_cons, List.head?_cons, g1, g2, h0, decide_True, Bool.true_and,
        hsep, sequentialBonus, camelCaseBonus, separatorBonus]
      congr 1
      cases prev <;> cases rest.head? <;>
        by_cases c1 : (isLower E y1 && isUpper E y2) = true <;>
        by_cases c2 : y1 ∈ E.Separators <;>
        simp [c1, c2, hne] <;> first | ring1 | (split_ifs <;> ring1)
    · have hz : i = 0 := by omega
      subst hz
      simp only [bonusLoop, h0, if_false]
      rw [ih _ _ hrest, hzip]
      simp only [List.countP_cons, List.head?_cons, sequentialBonus, firstRuneBonus]
      congr 1
      cases prev <;> cases rest.head? <;> simp <;>
        first | ring1 | (split_ifs <;> ring1)

theorem countP_zero_of_pairwise (l : List Nat) (hp : l.Pairwise (· < ·)) :
    l.countP (fun i => i == 0) = if l.head? = some 0 then 1 else 0 := by
  cases l with
  | nil => simp
  | cons i rest =>
    have hrest : rest.countP (fun j => j == 0) = 0 := by
      rw [List.countP_eq_zero]
      intro j hj
      have := List.rel_of_pairwise_cons hp hj
      simp
      omega
    simp only [List.countP_cons, hrest, List.head?_cons, Option.some.injEq]
    by_cases hi : i = 0 <;> simp [hi]

theorem leadingPenalty_eq (l : List Nat) :
    leadingPenalty l =
      match l.head? with
      | some i0 => max (-5 * (i0 : Int)) (-15)
      | none => 0 := by
  cases l with
  | nil => rfl
  | cons i rest =>
    simp only [leadingPenalty, leadingRunePenalty, maxLeadingRunePenalty, List.head?_cons, max_def]
    split_ifs <;> omega

/-- On strictly increasing positions of the string, the score that `match` computes for its
eager match is the value that the scoring rules assign to these positions. -/
theorem eagerScore_eq_ruleScore (E : Env) (O : List Rune) (idxs : List Nat)
    (hb : ∀ i ∈ idxs, i < O.length) (hp : idxs.Pairwise (· < ·)) :
    eagerScore E O idxs = some (ruleScore E O idxs) := by
  unfold eagerScore
  rw [bonusLoop_eq E O idxs none _ hb, countP_zero_of_pairwise idxs hp, leadingPenalty_eq]
  simp only [ruleScore, unmatchedRunePenalty]
  congr 1
  split_ifs <;> push_cast <;> ring

/-! ## The loop of `match` -/

theorem matchLoop_nil (E : Env) (O ps : List Rune) (rem : Int) (m : Slice) (bs : Int)
    (bm : Slice) (h : Heap) :
    matchLoop E O [] ps rem m bs bm h = finish E O ps m bs bm h := by
  simp [matchLoop]

theorem matchLoop_done (E : Env) (O str : List Rune) (rem : Int) (m : Slice) (bs : Int)
    (bm : Slice) (h : Heap) :
    matchLoop E O str [] rem m bs bm h = finish E O [] m bs bm h := by
  cases str <;> simp [matchLoop]

theorem matchLoop_miss (E : Env) (O rest ps : List Rune) (c p : Rune) (rem : Int) (m : Slice)
    (bs : Int) (bm : Slice) (h : Heap) (hne : E.toLower p ≠ E.toLower c) :
    matchLoop E O (c :: rest) (p :: ps) rem m bs bm h =
      matchLoop E O rest (p :: ps) rem m bs bm h := by
  simp [matchLoop, hne]

/-- One matching step of the loop, with the recursive call written as a call of `match`. -/
theorem matchLoop_hit (E : Env) (O rest ps : List Rune) (c p : Rune) (rem : Int) (m : Slice)
    (bs : Int) (bm : Slice) (h : Heap) (heq : E.toLower p = E.toLower c) :
    matchLoop E O (c :: rest) (p :: ps) rem m bs bm h =
      match match_ E (p :: ps) rest O m (rem - 1) h with
      | none => none
      | some (r, h1) =>
        matchLoop E O rest ps rem
          (append E h1 m (O.length - (c :: rest).length)).1
          (if r.matched then
            if bm.isNil || decide (r.score > bs) then (r.score, r.matches_) else (bs, bm)
           else (bs, bm)).1
          (if r.matched then
            if bm.isNil || decide (r.score > bs) then (r.score, r.matches_) else (bs, bm)
           else (bs, bm)).2
          (append E h1 m (O.length - (c :: rest).length)).2 := by
  rw [matchLoop]
  simp only [heq, ne_eq, not_true_eq_false, if_false, match_]

theorem finish_fail (E : Env) (O : List Rune) (p : Rune) (ps : List Rune) (m : Slice) (bs : Int)
    (bm : Slice) (h : Heap) : finish E O (p :: ps) m bs bm h = some (Res.fail, h) := by
  simp [finish]

theorem finish_spec (E : Env) (O P : List Rune) (m : Slice) (bs : Int) (bm : Slice) (h : Heap)
    (hv : h.Valid m) (hpl : Placed E O (h.read m) P) (hb : BestOk E O P h m bs bm) :
    ∃ r, finish E O [] m bs bm h = some (r, h) ∧ r.matched = true ∧
      h.Valid r.matches_ ∧ Placed E O (h.read r.matches_) P ∧
      (∃ idxs, Placed E O idxs P ∧ r.score = ruleScore E O idxs) ∧
      ruleScore E O (h.read m) ≤ r.score ∧
      (h.read r.matches_ ≠ h.read m → ruleScore E O (h.read m) < r.score) := by
  have hsc : eagerScore E O (h.read m) = some (ruleScore E O (h.read m)) :=
    eagerScore_eq_ruleScore E O _ hpl.lt_length hpl.2
  by_cases hw : (!bm.isNil && decide (bs > ruleScore E O (h.read m))) = true
  · have hgt : ruleScore E O (h.read m) < bs := by
      simp only [Bool.and_eq_true, decide_eq_true_eq] at hw
      exact hw.2
    refine ⟨⟨bs, bm, true⟩, by simp [finish, hsc, hw], rfl, ?_⟩
    have hnn : bm.ptr ≠ none := by
      intro e
      simp [Slice.isNil, e] at hw
    rcases hb with hb | ⟨hbv, hbl, hb, hbs⟩
    · exact absurd hb hnn
    · refine ⟨hbv, ?_, hbs, le_of_lt hgt, fun _ => hgt⟩
      rcases hb with hb | hb
      · have hml : m.len = P.length := by rw [← hv.read_length]; exact hpl.length_eq
        have : h.read bm = h.read m := by
          simp [Heap.read, hb, hbl, hml]
        simpa [this] using hpl
      · exact hb
  · refine ⟨⟨ruleScore E O (h.read m), m, true⟩, ?_, rfl, hv, hpl, ⟨_, hpl, rfl⟩, le_rfl,
      fun hne => absurd rfl hne⟩
    simp only [finish, hsc]
    simp [hw]

theorem Placed.snoc {E : Env} {O : List Rune} {idxs : List Nat} {ps : List Rune} {i : Nat}
    {p c : Rune} (hp : Placed E O idxs ps) (hb : ∀ j ∈ idxs, j < i) (hc : O[i]? = some c)
    (he : E.toLower p = E.toLower c) : Placed E O (idxs ++ [i]) (ps ++ [p]) := by
  refine ⟨List.rel_append hp.1 (List.Forall₂.cons ⟨c, hc, he⟩ List.Forall₂.nil), ?_⟩
  rw [List.pairwise_append]
  refine ⟨hp.2, List.pairwise_singleton _ _, fun a ha b hb2 => ?_⟩
  rw [List.mem_singleton] at hb2
  subst hb2
  exact hb a ha

/-- The best skip result survives the `append` that follows the recursive call: a slice that
shares the array of `matches` has room for the whole pattern, so the `append` writes in place and
the two keep sharing; a slice on another array is not touched. -/
theorem bestOk_append (E : Env) (O P : List Rune) (h1 : Heap) (m s : Slice) (x : Nat)
    (sc : Int) (hv : h1.Valid m) (hs : h1.Valid s) (hl : s.len = P.length)
    (hm : m.len < P.length) (hd : s.ptr = m.ptr ∨ Placed E O (h1.read s) P)
    (hsc : ∃ idxs, Placed E O idxs P ∧ sc = ruleScore E O idxs) :
    BestOk E O P (append E h1 m x).2 (append E h1 m x).1 sc s := by
  obtain ⟨-, -, -, af, ac⟩ := append_spec E h1 m x hv
  refine Or.inr ⟨hs.frame af, hl, ?_, hsc⟩
  by_cases hpm : s.ptr = m.ptr
  · left
    rcases ac with ⟨e, -⟩ | ⟨-, hfull⟩
    · rw [e, hpm]
    · exfalso
      obtain ⟨a, hpa, -, hla, hca⟩ := hs
      obtain ⟨b, hpb, -, hlb, -⟩ := hv
      have hab : a = b := by
        rw [hpm, hpb] at hpa
        exact (Option.some.inj hpa).symm
      subst hab
      omega
  · right
    rcases hd with hd | hd
    · exact absurd hd hpm
    · rw [Heap.read_frame_other hs af hpm]
      exact hd

theorem getElem?_length_append_cons {α : Type} (pre rest : List α) (c : α) :
    (pre ++ c :: rest)[pre.length]? = some c := by
  rw [List.getElem?_append_right (le_refl _)]
  simp

theorem eagerIdxs_hit (E : Env) (n : Nat) (c p : Rune) (rest ps : List Rune)
    (heq : E.toLower p = E.toLower c) :
    eagerIdxs E n (c :: rest) (p :: ps) = n :: eagerIdxs E (n + 1) rest ps := by
  simp [eagerIdxs, heq]

theorem eagerIdxs_miss (E : Env) (n : Nat) (c p : Rune) (rest ps : List Rune)
    (hne : ¬ E.toLower p = E.toLower c) :
    eagerIdxs E n (c :: rest) (p :: ps) = eagerIdxs E (n + 1) rest (p :: ps) := by
  simp [eagerIdxs, hne]

theorem eagerIdxs_done (E : Env) (n : Nat) (str : List Rune) : eagerIdxs E n str [] = [] := by
  cases str <;> simp [eagerIdxs]

/-- The loop of `match`, started in a state that satisfies the invariants, returns (no index
expression is out of range), changes the store only behind `matches` from its current length on
or in arrays it allocates, and reports `matched` exactly when the eager scan uses up the
pattern. It then returns a valid slice that holds a complete placement of the pattern, and a
score that is the rule value of some complete placement, at least the rule value of the
eager alignment, and larger than it whenever the returned indexes are not the eager
alignment. A failed call returns `0, nil, false`. -/
theorem matchLoop_spec (E : Env) (O P : List Rune) :
    ∀ (str pre ps P1 : List Rune) (rem : Int) (m : Slice) (bs : Int) (bm : Slice) (h : Heap),
      O = pre ++ str → P = P1 ++ ps → h.Valid m → Placed E O (h.read m) P1 →
      (∀ i ∈ h.read m, i < pre.length) → BestOk E O P h m bs bm →
      ∃ r h2, matchLoop E O str ps rem m bs bm h = some (r, h2) ∧
        Frame h h2 m.ptr m.len ∧ r.matched = eagerMatched E str ps ∧
        (r.matched = true →
          h2.Valid r.matches_ ∧ Placed E O (h2.read r.matches_) P ∧
          (∃ idxs, Placed E O idxs P ∧ r.score = ruleScore E O idxs) ∧
          ruleScore E O (h.read m ++ eagerIdxs E pre.length str ps) ≤ r.score ∧
          (h2.read r.matches_ ≠ h.read m ++ eagerIdxs E pre.length str ps →
            ruleScore E O (h.read m ++ eagerIdxs E pre.length str ps) < r.score)) ∧
        (r.matched = false → r = Res.fail) := by
  intro str
  induction str with
  | nil =>
    intro pre ps P1 rem m bs bm h hO hP hv hpl hlt hb
    cases ps with
    | nil =>
      rw [List.append_nil] at hP
      subst hP
      obtain ⟨r, e, hm, hrest⟩ := finish_spec E O P m bs bm h hv hpl hb
      refine ⟨r, h, by rw [matchLoop_nil, e], Frame.refl _ _ _, by simp [hm, eagerMatched],
        fun _ => by simpa [eagerIdxs] using hrest, fun hf => ?_⟩
      rw [hm] at hf
      cases hf
    | cons p ps =>
      exact ⟨Res.fail, h, by rw [matchLoop_nil, finish_fail], Frame.refl _ _ _,
        by simp [Res.fail, eagerMatched], fun hf => by simp [Res.fail] at hf, fun _ => rfl⟩
  | cons c rest ih =>
    intro pre ps P1 rem m bs bm h hO hP hv hpl hlt hb
    cases ps with
    | nil =>
      rw [List.append_nil] at hP
      subst hP
      obtain ⟨r, e, hm, hrest⟩ := finish_spec E O P m bs bm h hv hpl hb
      refine ⟨r, h, by rw [matchLoop_done, e], Frame.refl _ _ _, by simp [hm, eagerMatched],
        fun _ => by simpa [eagerIdxs] using hrest, fun hf => ?_⟩
      rw [hm] at hf
      cases hf
    | cons p ps =>
      have hO2 : O = (pre ++ [c]) ++ rest := by simp [hO]
      have hlen2 : (pre ++ [c]).length = pre.length + 1 := by simp
      have hlt2 : ∀ i ∈ h.read m, i < (pre ++ [c]).length := fun i hi => by
        have := hlt i hi
        omega
      by_cases heq : E.toLower p = E.toLower c
      · -- the recursive call that skips this occurrence
        have skip : ∃ r h1, match_ E (p :: ps) rest O m (rem - 1) h = some (r, h1) ∧
            Frame h h1 m.ptr m.len ∧
            (r.matched = true → h1.Valid r.matches_ ∧ Placed E O (h1.read r.matches_) P ∧
              ∃ idxs, Placed E O idxs P ∧ r.score = ruleScore E O idxs) := by
          by_cases hr : rem - 1 < 0
          · exact ⟨Res.fail, h, by simp [match_, hr], Frame.refl _ _ _,
              fun hf => by simp [Res.fail] at hf⟩
          · obtain ⟨r, h1, e, f, -, hrm, -⟩ :=
              ih (pre ++ [c]) (p :: ps) P1 (rem - 1) m 0 Slice.nil h hO2 hP hv hpl hlt2
                (Or.inl rfl)
            exact ⟨r, h1, by simp [match_, hr, e], f,
              fun ht => ⟨(hrm ht).1, (hrm ht).2.1, (hrm ht).2.2.1⟩⟩
        obtain ⟨r, h1, e1, f1, hr⟩ := skip
        have hv1 : h1.Valid m := hv.frame f1
        have hread1 : h1.read m = h.read m := Heap.read_frame_keep hv f1 le_rfl
        have hmlen : m.len = P1.length := by rw [← hv.read_length]; exact hpl.length_eq
        have hmlt : m.len < P.length := by rw [hP, hmlen]; simp
        have hidx : O.length - (c :: rest).length = pre.length := by
          rw [hO]; simp
        obtain ⟨av, al, ar, af, ac⟩ := append_spec E h1 m pre.length hv1
        -- the best skip result after this step
        have hbest : BestOk E O P (append E h1 m pre.length).2 (append E h1 m pre.length).1
            (if r.matched then
              if bm.isNil || decide (r.score > bs) then (r.score, r.matches_) else (bs, bm)
             else (bs, bm)).1
            (if r.matched then
              if bm.isNil || decide (r.score > bs) then (r.score, r.matches_) else (bs, bm)
             else (bs, bm)).2 := by
          have hold : BestOk E O P (append E h1 m pre.length).2 (append E h1 m pre.length).1
              bs bm := by
            rcases hb with hb | ⟨hbv, hbl, hbd, hbs⟩
            · exact Or.inl hb
            · refine bestOk_append E O P h1 m bm _ bs hv1 (hbv.frame f1) hbl hmlt ?_ hbs
              by_cases hpm : bm.ptr = m.ptr
              · exact Or.inl hpm
              · rcases hbd with hbd | hbd
                · exact absurd hbd hpm
                · right
                  rw [Heap.read_frame_other hbv f1 hpm]
                  exact hbd
          by_cases hrm : r.matched = true
          · obtain ⟨hrv, hrp, hrs⟩ := hr hrm
            by_cases hcond : (bm.isNil || decide (r.score > bs)) = true
            · simp only [hrm, hcond, if_true]
              refine bestOk_append E O P h1 m r.matches_ _ r.score hv1 hrv ?_ hmlt (Or.inr hrp)
                hrs
              rw [← hrv.read_length]
              exact hrp.length_eq
            · simp only [hrm, hcond, if_true]
              exact hold
          · simp only [hrm]
            exact hold
        have hpl2 : Placed E O ((append E h1 m pre.length).2.read (append E h1 m pre.length).1)
            (P1 ++ [p]) := by
          rw [ar, hread1]
          refine hpl.snoc hlt ?_ heq
          rw [hO]
          exact getElem?_length_append_cons pre rest c
        have hlt3 : ∀ i ∈ (append E h1 m pre.length).2.read (append E h1 m pre.length).1,
            i < (pre ++ [c]).length := by
          intro i hi
          rw [ar, hread1, List.mem_append] at hi
          rcases hi with hi | hi
          · exact hlt2 i hi
          · rw [List.mem_singleton] at hi
            simp [hi]
        obtain ⟨r2, h2, e2, f2, hm2, hr2, hf2⟩ :=
          ih (pre ++ [c]) ps (P1 ++ [p]) rem (append E h1 m pre.length).1 _ _
            (append E h1 m pre.length).2 hO2 (by simp [hP]) av hpl2 hlt3 hbest
        have heager : (append E h1 m pre.length).2.read (append E h1 m pre.length).1 ++
            eagerIdxs E (pre ++ [c]).length rest ps =
            h.read m ++ eagerIdxs E pre.length (c :: rest) (p :: ps) := by
          rw [ar, hread1, eagerIdxs_hit E _ c p rest ps heq, hlen2]
          simp
        rw [heager] at hr2
        refine ⟨r2, h2, ?_, ?_, ?_, hr2, hf2⟩
        · rw [matchLoop_hit E O rest ps c p rem m bs bm h heq, e1]
          simp only [hidx]
          exact e2
        · refine Frame.trans f1 (Frame.trans af f2 ?_) (Or.inl ⟨rfl, le_rfl⟩)
          rcases ac with ⟨e, -⟩ | ⟨e, -⟩
          · exact Or.inl ⟨e, by rw [al]; exact Nat.le_succ _⟩
          · right
            intro a ha
            rw [e] at ha
            exact le_of_eq (Option.some.inj ha)
        · rw [hm2]
          simp [eagerMatched, heq]
      · obtain ⟨r2, h2, e2, f2, hm2, hr2, hf2⟩ :=
          ih (pre ++ [c]) (p :: ps) P1 rem m bs bm h hO2 hP hv hpl hlt2 hb
        rw [hlen2, ← eagerIdxs_miss E _ c p rest ps heq] at hr2
        refine ⟨r2, h2, ?_, f2, ?_, hr2, hf2⟩
        · rw [matchLoop_miss E O rest ps c p rem m bs bm h heq]
          exact e2
        · rw [hm2]
          simp [eagerMatched, heq]

/-! ## `Matches` -/

/-- The call made by `Matches` and by `Rank`, on any store: it returns, and a successful
result is a valid slice holding a complete placement of the pattern, with a score as described
for the loop. -/
theorem MatchesIn_spec (E : Env) (pattern str : List Rune) (h : Heap) :
    ∃ r h2, MatchesIn E pattern str h = some (r, h2) ∧
      r.matched = eagerMatched E str pattern ∧
      (r.matched = true →
        h2.Valid r.matches_ ∧ Placed E str (h2.read r.matches_) pattern ∧
        (∃ idxs, Placed E str idxs pattern ∧ r.score = ruleScore E str idxs) ∧
        ruleScore E str (eagerIdxs E 0 str pattern) ≤ r.score ∧
        (h2.read r.matches_ ≠ eagerIdxs E 0 str pattern →
          ruleScore E str (eagerIdxs E 0 str pattern) < r.score)) ∧
      (r.matched = false → r = Res.fail) := by
  have hv : (makeEmpty h).2.Valid (makeEmpty h).1 :=
    ⟨h.length, rfl, by simp [makeEmpty], by simp [makeEmpty, Heap.array_append_new], le_rfl⟩
  have hread : (makeEmpty h).2.read (makeEmpty h).1 = [] := by
    simp [makeEmpty, Heap.read]
  obtain ⟨r, h2, e, -, hm, hr, hf⟩ :=
    matchLoop_spec E str pattern str [] pattern [] maxRecursions (makeEmpty h).1 0 Slice.nil
      (makeEmpty h).2 rfl rfl hv (by rw [hread]; exact ⟨List.Forall₂.nil, List.Pairwise.nil⟩)
      (by rw [hread]; intro i hi; cases hi) (Or.inl rfl)
  rw [hread] at hr
  refine ⟨r, h2, ?_, hm, by simpa using hr, hf⟩
  simp only [MatchesIn, match_]
  rw [if_neg (by decide)]
  exact e

/-- `Matches` returns for every input; `matched` is the outcome of the eager scan; a
successful result carries a complete placement of the pattern and a score that is the rule
value of some complete placement, at least the rule value of the eager alignment and larger
than it when the returned indexes differ from the eager alignment; a failed result is
`0, nil, false`. -/
theorem Matches_spec (E : Env) (pattern str : List Rune) :
    ∃ r, Matches E pattern str = some r ∧
      r.matched = eagerMatched E str pattern ∧
      (r.matched = true →
        ∃ idxs, r.matchedIndexes = some idxs ∧ Placed E str idxs pattern ∧
          (∃ idxs2, Placed E str idxs2 pattern ∧ r.score = ruleScore E str idxs2) ∧
          ruleScore E str (eagerIdxs E 0 str pattern) ≤ r.score ∧
          (idxs ≠ eagerIdxs E 0 str pattern →
            ruleScore E str (eagerIdxs E 0 str pattern) < r.score)) ∧
      (r.matched = false → r = ⟨0, none, false⟩) := by
  obtain ⟨r, h2, e, hm, hr, hf⟩ := MatchesIn_spec E pattern str []
  refine ⟨⟨r.score, h2.observe r.matches_, r.matched⟩, by simp [Matches, e], hm, ?_, ?_⟩
  · intro ht
    obtain ⟨⟨a, hp, -⟩, hpl, hsc, hle, hlt⟩ := hr ht
    exact ⟨h2.read r.matches_, by simp [Heap.observe, Slice.isNil, hp], hpl, hsc, hle, hlt⟩
  · intro hfalse
    rw [hf hfalse]
    simp [Res.fail, Heap.observe, Slice.isNil, Slice.nil]

theorem forall₂_getElem? {α β : Type} {R : α → β → Prop} {l1 : List α} {l2 : List β}
    (hf : List.Forall₂ R l1 l2) :
    ∀ (k : Nat) (a : α), l1[k]? = some a → ∃ b, l2[k]? = some b ∧ R a b := by
  induction hf with
  | nil => intro k a h; simp at h
  | cons hab _ ih =>
    intro k a h
    cases k with
    | zero =>
      simp only [List.getElem?_cons_zero, Option.some.injEq] at h
      subst h
      exact ⟨_, by simp, hab⟩
    | succ k =>
      simp only [List.getElem?_cons_succ] at h
      obtain ⟨b, hb, hr⟩ := ih k a h
      exact ⟨b, by simpa using hb, hr⟩

theorem pairwise_getElem? {l : List Nat} (hp : l.Pairwise (· < ·)) :
    ∀ (j k a b : Nat), j < k → l[j]? = some a → l[k]? = some b → a < b := by
  intro j k a b hjk ha hb
  obtain ⟨hj, rfl⟩ := List.getElem?_eq_some_iff.mp ha
  obtain ⟨hk, rfl⟩ := List.getElem?_eq_some_iff.mp hb
  exact List.pairwise_iff_getElem.mp hp j k hj hk hjk

/-- A placement is a valid alignment in the sense of the specification. -/
theorem Placed.isAlignment {E : Env} {str pattern : List Rune} {idxs : List Nat}
    (hp : Placed E str idxs pattern) : IsAlignment E pattern str idxs := by
  refine ⟨hp.length_eq, pairwise_getElem? hp.2, fun k i hk => ?_⟩
  obtain ⟨p, hpk, c, hc, he⟩ := forall₂_getElem? hp.1 k i hk
  exact ⟨(List.getElem?_eq_some_iff.mp hc).1, c, p, hc, hpk, he.symm⟩

theorem IsAlignment.placed {E : Env} {str pattern : List Rune} {idxs : List Nat}
    (ha : IsAlignment E pattern str idxs) : Placed E str idxs pattern := by
  obtain ⟨hl, hinc, hch⟩ := ha
  refine ⟨List.forall₂_of_length_eq_of_get hl fun i h1 h2 => ?_, ?_⟩
  · have hi : idxs[i]? = some (idxs.get ⟨i, h1⟩) := by
      simp [List.getElem?_eq_getElem h1]
    obtain ⟨-, c, p, hc, hp, he⟩ := hch i _ hi
    have hp2 : pattern[i]? = some (pattern.get ⟨i, h2⟩) := by
      simp [List.getElem?_eq_getElem h2]
    rw [hp2] at hp
    rw [Option.some.inj hp]
    exact ⟨c, hc, he.symm⟩
  · rw [List.pairwise_iff_getElem]
    intro i j hi hj hij
    exact hinc i j _ _ hij (List.getElem?_eq_getElem hi) (List.getElem?_eq_getElem hj)

/-- If the pattern can be placed in the part of the string not yet scanned, the eager scan
uses up the pattern. -/
theorem eagerMatched_of_forall₂ (E : Env) (O : List Rune) :
    ∀ (str pre ps : List Rune) (idxs : List Nat), O = pre ++ str →
      List.Forall₂ (fun i p => ∃ c, O[i]? = some c ∧ E.toLower p = E.toLower c) idxs ps →
      idxs.Pairwise (· < ·) → (∀ i ∈ idxs, pre.length ≤ i) → eagerMatched E str ps = true := by
  intro str
  induction str with
  | nil =>
    intro pre ps idxs hO hf _ hlo
    cases hf with
    | nil => simp [eagerMatched]
    | cons hab _ =>
      obtain ⟨c, hc, -⟩ := hab
      have h1 := (List.getElem?_eq_some_iff.mp hc).1
      have h2 := hlo _ (List.mem_cons_self _ _)
      rw [hO] at h1
      simp at h1
      omega
  | cons c rest ih =>
    intro pre ps idxs hO hf hpw hlo
    have hO2 : O = (pre ++ [c]) ++ rest := by simp [hO]
    cases hf with
    | nil => simp [eagerMatched]
    | @cons i p is ps2 hab htl =>
      by_cases heq : E.toLower p = E.toLower c
      · have : eagerMatched E (c :: rest) (p :: ps2) = eagerMatched E rest ps2 := by
          simp [eagerMatched, heq]
        rw [this]
        refine ih (pre ++ [c]) ps2 is hO2 htl (List.Pairwise.of_cons hpw) fun j hj => ?_
        have h1 := hlo i (List.mem_cons_self _ _)
        have h2 := List.rel_of_pairwise_cons hpw hj
        simp
        omega
      · have : eagerMatched E (c :: rest) (p :: ps2) = eagerMatched E rest (p :: ps2) := by
          simp [eagerMatched, heq]
        rw [this]
        refine ih (pre ++ [c]) (p :: ps2) (i :: is) hO2 (List.Forall₂.cons hab htl) hpw
          fun j hj => ?_
        have hi : pre.length < i := by
          rcases Nat.lt_or_ge pre.length i with h | h
          · exact h
          · exfalso
            have h1 := hlo i (List.mem_cons_self _ _)
            have hi : i = pre.length := le_antisymm h h1
            obtain ⟨c2, hc2, he2⟩ := hab
            rw [hi, hO, getElem?_length_append_cons] at hc2
            rw [← Option.some.inj hc2] at he2
            exact heq he2
        rcases List.mem_cons.mp hj with rfl | hj
        · simp
          omega
        · have h2 := List.rel_of_pairwise_cons hpw hj
          simp
          omega

theorem eagerMatched_of_placed {E : Env} {str pattern : List Rune} {idxs : List Nat}
    (hp : Placed E str idxs pattern) : eagerMatched E str pattern = true :=
  eagerMatched_of_forall₂ E str str [] pattern idxs rfl hp.1 hp.2 (fun _ _ => Nat.zero_le _)

/-! ## The claims about `Matches` -/

/-- C1: `Matches` returns for every pattern and string, and it reports `matched = true` exactly
when the pattern's runes form a case-insensitive subsequence of the string's runes, that is,
when a valid alignment exists; the recursion budget never makes a feasible match fail. -/
theorem Matches_matched_iff_subsequence (E : Env) (pattern str : List Rune) :
    ∃ r, Matches E pattern str = some r ∧
      (r.matched = true ↔ ∃ idxs, IsAlignment E pattern str idxs) := by
  obtain ⟨r, e, hm, hr, -⟩ := Matches_spec E pattern str
  refine ⟨r, e, fun ht => ?_, fun ⟨idxs, ha⟩ => ?_⟩
  · obtain ⟨idxs, -, hp, -⟩ := hr ht
    exact ⟨idxs, hp.isAlignment⟩
  · rw [hm]
    exact eagerMatched_of_placed ha.placed

/-- C4: when `Matches` reports a match, the returned index slice is non-nil and has exactly one
entry per rune of the pattern. -/
theorem Matches_indexes_length (E : Env) (pattern str : List Rune) (score : Int)
    (idxs : Option (List Nat)) (hm : Matches E pattern str = some ⟨score, idxs, true⟩) :
    ∃ l, idxs = some l ∧ l.length = pattern.length := by
  obtain ⟨r, e, -, hr, -⟩ := Matches_spec E pattern str
  rw [hm] at e
  obtain rfl := Option.some.inj e
  obtain ⟨l, hl, hp, -⟩ := hr rfl
  exact ⟨l, hl, hp.length_eq⟩

theorem Matches_indexes_length_witness :
    Matches goEnv [97, 98] [120, 97, 98] = some ⟨9, some [1, 2], true⟩ ∧
      ∃ l, some [1, 2] = some l ∧ l.length = [97, 98].length :=
  ⟨by decide, Matches_indexes_length goEnv [97, 98] [120, 97, 98] 9 (some [1, 2]) (by decide)⟩

/-- C5: when `Matches` reports a match, the returned indexes are strictly increasing. -/
theorem Matches_indexes_increasing (E : Env) (pattern str : List Rune) (score : Int)
    (idxs : List Nat) (hm : Matches E pattern str = some ⟨score, some idxs, true⟩) :
    ∀ (j k a b : Nat), j < k → idxs[j]? = some a → idxs[k]? = some b → a < b := by
  obtain ⟨r, e, -, hr, -⟩ := Matches_spec E pattern str
  rw [hm] at e
  obtain rfl := Option.some.inj e
  obtain ⟨l, hl, hp, -⟩ := hr rfl
  obtain rfl := Option.some.inj hl
  exact hp.isAlignment.2.1

theorem Matches_indexes_increasing_witness :
    Matches goEnv [88, 97, 98] [88, 121, 97, 98, 97, 98, 97, 66, 97, 98] =
        some ⟨43, some [0, 6, 7], true⟩ ∧
      ∀ (j k a b : Nat), j < k → [0, 6, 7][j]? = some a → [0, 6, 7][k]? = some b → a < b :=
  ⟨by decide,
    Matches_indexes_increasing goEnv [88, 97, 98] [88, 121, 97, 98, 97, 98, 97, 66, 97, 98] 43
      [0, 6, 7] (by decide)⟩

/-- C6: when `Matches` reports a match, every returned index is a rune position of the string,
and the rune there equals the pattern rune of the same rank up to case. -/
theorem Matches_indexes_valid (E : Env) (pattern str : List Rune) (score : Int)
    (idxs : List Nat) (hm : Matches E pattern str = some ⟨score, some idxs, true⟩) :
    ∀ (k i : Nat), idxs[k]? = some i →
      i < str.length ∧
      ∃ c p, str[i]? = some c ∧ pattern[k]? = some p ∧ E.toLower c = E.toLower p := by
  obtain ⟨r, e, -, hr, -⟩ := Matches_spec E pattern str
  rw [hm] at e
  obtain rfl := Option.some.inj e
  obtain ⟨l, hl, hp, -⟩ := hr rfl
  obtain rfl := Option.some.inj hl
  exact hp.isAlignment.2.2

theorem Matches_indexes_valid_witness :
    Matches goEnv [97, 98, 99, 100] [97, 98, 99, 100, 120, 95, 100] =
        some ⟨62, some [0, 1, 2, 3], true⟩ ∧
      ∀ (k i : Nat), [0, 1, 2, 3][k]? = some i →
        i < [97, 98, 99, 100, 120, 95, 100].length ∧
        ∃ c p, [97, 98, 99, 100, 120, 95, 100][i]? = some c ∧
          [97, 98, 99, 100][k]? = some p ∧ goEnv.toLower c = goEnv.toLower p :=
  ⟨by decide,
    Matches_indexes_valid goEnv [97, 98, 99, 100] [97, 98, 99, 100, 120, 95, 100] 62
      [0, 1, 2, 3] (by decide)⟩

/-- C10: the empty pattern matches every string, with an empty non-nil index slice and a score
of minus the number of runes of the string. -/
theorem Matches_empty_pattern (E : Env) (str : List Rune) :
    Matches E [] str = some ⟨-(str.length : Int), some [], true⟩ := by
  simp [Matches, MatchesIn, match_, maxRecursions, matchLoop_done, finish, eagerScore, bonusLoop,
    leadingPenalty, makeEmpty, Heap.read, Heap.array, Heap.observe, Slice.isNil, Slice.nil,
    unmatchedRunePenalty]

/-! ## Independence of the store in front -/

theorem Heap.array_shift (H h : Heap) (a : Nat) :
    Heap.array (H ++ h) (a + H.length) = Heap.array h a := by
  simp [Heap.array, List.getD, List.getElem?_append_right (Nat.le_add_left H.length a)]

theorem Heap.read_shift (H h : Heap) (s : Slice) :
    Heap.read (H ++ h) (s.shift H.length) = Heap.read h s := by
  cases hs : s.ptr with
  | none => simp [Heap.read, Slice.shift, hs]
  | some a => simp [Heap.read, Slice.shift, hs, Heap.array_shift]

theorem Slice.isNil_shift (n : Nat) (s : Slice) : (s.shift n).isNil = s.isNil := by
  cases hs : s.ptr <;> simp [Slice.isNil, Slice.shift, hs]

theorem appendAlloc_shift (E : Env) (H h : Heap) (m : Slice) (x : Nat) :
    appendAlloc E (H ++ h) (m.shift H.length) x =
      ((appendAlloc E h m x).1.shift H.length, H ++ (appendAlloc E h m x).2) := by
  simp only [appendAlloc, Heap.read_shift]
  simp [Slice.shift, Nat.add_comm]

theorem append_shift (E : Env) (H h : Heap) (m : Slice) (x : Nat) :
    append E (H ++ h) (m.shift H.length) x =
      ((append E h m x).1.shift H.length, H ++ (append E h m x).2) := by
  cases hs : m.ptr with
  | none =>
    have e1 : append E (H ++ h) (m.shift H.length) x =
        appendAlloc E (H ++ h) (m.shift H.length) x := by
      simp [append, Slice.shift, hs]
    have e2 : append E h m x = appendAlloc E h m x := by simp [append, hs]
    rw [e1, e2, appendAlloc_shift]
  | some a =>
    by_cases hlt : m.len < m.cap
    · have e1 : append E (H ++ h) (m.shift H.length) x =
          (⟨some (a + H.length), m.len + 1, m.cap⟩,
            (H ++ h).set (a + H.length) ((Heap.array (H ++ h) (a + H.length)).set m.len x)) := by
        simp [append, Slice.shift, hs, hlt]
      have e2 : append E h m x =
          (⟨some a, m.len + 1, m.cap⟩, h.set a ((h.array a).set m.len x)) := by
        simp [append, hs, hlt]
      rw [e1, e2, Heap.array_shift,
        List.set_append_right _ _ (Nat.le_add_left H.length a)]
      simp [Slice.shift]
    · have e1 : append E (H ++ h) (m.shift H.length) x =
          appendAlloc E (H ++ h) (m.shift H.length) x := by
        simp [append, Slice.shift, hs, hlt]
      have e2 : append E h m x = appendAlloc E h m x := by simp [append, hs, hlt]
      rw [e1, e2, appendAlloc_shift]

theorem finish_shift (E : Env) (O ps : List Rune) (H h : Heap) (m : Slice) (bs : Int)
    (bm : Slice) :
    finish E O ps (m.shift H.length) bs (bm.shift H.length) (H ++ h) =
      (finish E O ps m bs bm h).map (fun x => (x.1.shift H.length, H ++ x.2)) := by
  simp only [finish, Heap.read_shift, Slice.isNil_shift]
  by_cases hp : ps.length ≠ 0
  · simp [hp, Res.fail, Res.shift, Slice.shift, Slice.nil]
  · simp only [hp, if_false]
    cases eagerScore E O (h.read m) with
    | none => rfl
    | some sc =>
      by_cases hw : (!bm.isNil && decide (bs > sc)) = true
      · simp [hw, Res.shift]
      · simp [hw, Res.shift]

/-- Running the loop of `match` behind a store `H` gives the same results as running it on its
own, and leaves `H` as it was. -/
theorem matchLoop_shift (E : Env) (O : List Rune) (H : Heap) :
    ∀ (str ps : List Rune) (rem : Int) (m : Slice) (bs : Int) (bm : Slice) (h : Heap),
      matchLoop E O str ps rem (m.shift H.length) bs (bm.shift H.length) (H ++ h) =
        (matchLoop E O str ps rem m bs bm h).map (fun x => (x.1.shift H.length, H ++ x.2)) := by
  intro str
  induction str with
  | nil =>
    intro ps rem m bs bm h
    rw [matchLoop_nil, matchLoop_nil, finish_shift]
  | cons c rest ih =>
    intro ps rem m bs bm h
    cases ps with
    | nil => rw [matchLoop_done, matchLoop_done, finish_shift]
    | cons p ps =>
      by_cases heq : E.toLower p = E.toLower c
      · rw [matchLoop_hit E O rest ps c p rem _ bs _ _ heq,
          matchLoop_hit E O rest ps c p rem m bs bm h heq]
        have hskip : match_ E (p :: ps) rest O (m.shift H.length) (rem - 1) (H ++ h) =
            (match_ E (p :: ps) rest O m (rem - 1) h).map
              (fun x => (x.1.shift H.length, H ++ x.2)) := by
          by_cases hr : rem - 1 < 0
          · simp [match_, hr, Res.fail, Res.shift, Slice.shift, Slice.nil]
          · simp only [match_, hr, if_false]
            exact ih (p :: ps) (rem - 1) m 0 Slice.nil h
        rw [hskip]
        cases match_ E (p :: ps) rest O m (rem - 1) h with
        | none => rfl
        | some x =>
          obtain ⟨r, h1⟩ := x
          simp only [Option.map_some', append_shift, Slice.isNil_shift]
          have hbest :
              (if (Res.shift H.length r).matched = true then
                if (bm.isNil || decide ((Res.shift H.length r).score > bs)) = true then
                  ((Res.shift H.length r).score, (Res.shift H.length r).matches_)
                else (bs, bm.shift H.length)
               else (bs, bm.shift H.length)) =
              (((if r.matched = true then
                  if (bm.isNil || decide (r.score > bs)) = true then (r.score, r.matches_)
                  else (bs, bm)
                 else (bs, bm)).1,
                ((if r.matched = true then
                  if (bm.isNil || decide (r.score > bs)) = true then (r.score, r.matches_)
                  else (bs, bm)
                 else (bs, bm)).2).shift H.length) : Int × Slice) := by
            by_cases h1 : r.matched = true <;>
              by_cases h2 : (bm.isNil || decide (r.score > bs)) = true <;>
              simp [Res.shift, h1, h2]
          rw [hbest]
          exact ih ps rem _ _ _ _
      · rw [matchLoop_miss E O rest ps c p rem _ bs _ _ heq,
          matchLoop_miss E O rest ps c p rem m bs bm h heq]
        exact ih (p :: ps) rem m bs bm h

theorem MatchesIn_shift (E : Env) (pattern str : List Rune) (H : Heap) :
    MatchesIn E pattern str H =
      (MatchesIn E pattern str []).map (fun x => (x.1.shift H.length, H ++ x.2)) := by
  have hm := matchLoop_shift E str H str pattern maxRecursions ⟨some 0, 0, 0⟩ 0 Slice.nil [[]]
  simp only [MatchesIn, match_, makeEmpty]
  rw [if_neg (by decide), if_neg (by decide)]
  simpa [Slice.shift, Slice.nil] using hm

/-! ## `Rank` -/

theorem Heap.observe_shift (H h : Heap) (s : Slice) :
    Heap.observe (H ++ h) (s.shift H.length) = Heap.observe h s := by
  simp [Heap.observe, Slice.isNil_shift, Heap.read_shift]

theorem Heap.observe_append (h X : Heap) (s : Slice) (hv : h.Valid s) :
    Heap.observe (h ++ X) s = Heap.observe h s := by
  obtain ⟨a, hp, ha, -, -⟩ := hv
  simp [Heap.observe, Heap.read, hp, Heap.array_append_left h X a ha]

theorem Heap.view_append (h X : Heap) (m : Match) (hv : h.Valid m.MatchedIndexes) :
    Heap.view (h ++ X) m = Heap.view h m := by
  simp [Heap.view, Heap.observe_append h X _ hv]

/-- The loop of `Rank` returns; it extends the store it was started on, keeps the matches
collected before, and adds, in input order, one match per remaining candidate that `Matches`
accepts, which the caller reads as the entry the specification prescribes. -/
theorem rankLoop_spec (E : Env) (pattern : List Rune) :
    ∀ (strings : List (List Rune)) (i : Nat) (res : List Match) (h : Heap),
      ∃ new X, rankLoop E pattern strings i res h = some (res ++ new, h ++ X) ∧
        (∀ m ∈ new, (h ++ X).Valid m.MatchedIndexes) ∧
        new.map (h ++ X).view =
          (strings.enumFrom i).filterMap (fun x => rankEntry E pattern x.1 x.2) := by
  intro strings
  induction strings with
  | nil =>
    intro i res h
    exact ⟨[], [], by simp [rankLoop], by simp, by simp⟩
  | cons str rest ih =>
    intro i res h
    obtain ⟨r, h2, e0, -, hr, -⟩ := MatchesIn_spec E pattern str []
    have e1 : MatchesIn E pattern str h = some (r.shift h.length, h ++ h2) := by
      rw [MatchesIn_shift, e0]
      rfl
    have eM : Matches E pattern str = some ⟨r.score, h2.observe r.matches_, r.matched⟩ := by
      simp [Matches, e0]
    have eloop : rankLoop E pattern (str :: rest) i res h =
        if r.matched then
          rankLoop E pattern rest (i + 1)
            (res ++ [⟨str, i, r.score, r.matches_.shift h.length⟩]) (h ++ h2)
        else rankLoop E pattern rest (i + 1) res (h ++ h2) := by
      have e1b := e1
      simp only [MatchesIn] at e1b
      rw [rankLoop]
      simp only [e1b]
      rfl
    by_cases hm : r.matched = true
    · obtain ⟨hv, -⟩ := hr hm
      obtain ⟨new, X, e2, hval, hnew⟩ :=
        ih (i + 1) (res ++ [⟨str, i, r.score, r.matches_.shift h.length⟩]) (h ++ h2)
      have hvs : (h ++ h2).Valid (r.matches_.shift h.length) := by
        obtain ⟨a, hp, ha, hl, hc⟩ := hv
        refine ⟨a + h.length, by simp [Slice.shift, hp], by simp; omega, ?_, hc⟩
        rw [Heap.array_shift]
        exact hl
      refine ⟨⟨str, i, r.score, r.matches_.shift h.length⟩ :: new, h2 ++ X, ?_, ?_, ?_⟩
      · rw [eloop, if_pos hm, e2]
        simp
      · intro m hmem
        rw [← List.append_assoc]
        rcases List.mem_cons.mp hmem with rfl | hmem
        · exact hvs.frame (p := none) (n := 0)
            ⟨by simp, fun a ha => by
              rw [Heap.array_append_left _ X a ha]
              exact ⟨rfl, fun _ => rfl, rfl⟩⟩
        · exact hval m hmem
      · rw [← List.append_assoc] at *
        simp only [List.map_cons, List.enumFrom_cons, List.filterMap_cons, rankEntry, eM, hm,
          if_true]
        rw [hnew]
        congr 1
        rw [Heap.view_append _ X _ hvs]
        simp [Heap.view, Heap.observe_shift]
    · obtain ⟨new, X, e2, hval, hnew⟩ := ih (i + 1) res (h ++ h2)
      refine ⟨new, h2 ++ X, ?_, ?_, ?_⟩
      · rw [eloop, if_neg hm, e2]
        simp
      · rw [← List.append_assoc]
        exact hval
      · rw [← List.append_assoc]
        simp only [List.enumFrom_cons, List.filterMap_cons, rankEntry, eM, hm]
        exact hnew

/-- C2: `Rank` returns, and its result holds, up to order, exactly the entries that the
specification prescribes: one entry for each input position whose candidate `Matches` accepts,
carrying that position, the candidate, and the score and indexes returned by `Matches`, and
no entry for any other position. -/
theorem Rank_entries (E : Env) (S : Sorter) (pattern : List Rune) (strings : List (List Rune)) :
    ∃ out, Rank E S pattern strings = some out ∧
      out.Perm (strings.enum.filterMap (fun x => rankEntry E pattern x.1 x.2)) := by
  obtain ⟨new, X, e, -, hnew⟩ := rankLoop_spec E pattern strings 0 [] []
  refine ⟨(S.sort new).map (Heap.view X), ?_, ?_⟩
  · simp only [Rank, RankWith, e]
    simp
  · have := (S.perm new).map (Heap.view X)
    simp only [List.nil_append] at hnew
    rw [hnew] at this
    exact this

/-- C7: the result of `Rank` is ordered by descending score. -/
theorem Rank_descending (E : Env) (S : Sorter) (pattern : List Rune)
    (strings : List (List Rune)) :
    ∃ out, Rank E S pattern strings = some out ∧
      ∀ (i j : Nat) (a b : RankedMatch), i < j → out[i]? = some a → out[j]? = some b →
        a.Score ≥ b.Score := by
  obtain ⟨new, X, e, -, -⟩ := rankLoop_spec E pattern strings 0 [] []
  refine ⟨(S.sort new).map (Heap.view X), ?_, ?_⟩
  · simp only [Rank, RankWith, e]
    simp
  · have hp : ((S.sort new).map (Heap.view X)).Pairwise (fun a b => a.Score ≥ b.Score) := by
      rw [List.pairwise_map]
      refine List.Pairwise.imp ?_ (S.sorted new)
      intro a b hab
      simpa [matchSortLess, Heap.view] using hab
    intro i j a b hij ha hb
    obtain ⟨hi, rfl⟩ := List.getElem?_eq_some_iff.mp ha
    obtain ⟨hj, rfl⟩ := List.getElem?_eq_some_iff.mp hb
    exact List.pairwise_iff_getElem.mp hp i j hi hj hij

/-! ## Casing of the pattern -/

/-- The loop of `match` looks at the pattern only through the lower-case forms of its runes. -/
theorem matchLoop_congr (E : Env) (O : List Rune) :
    ∀ (str ps qs : List Rune) (rem : Int) (m : Slice) (bs : Int) (bm : Slice) (h : Heap),
      List.Forall₂ (fun a b => E.toLower a = E.toLower b) ps qs →
      matchLoop E O str ps rem m bs bm h = matchLoop E O str qs rem m bs bm h := by
  intro str
  induction str with
  | nil =>
    intro ps qs rem m bs bm h hf
    rw [matchLoop_nil, matchLoop_nil]
    simp [finish, hf.length_eq]
  | cons c rest ih =>
    intro ps qs rem m bs bm h hf
    cases hf with
    | nil => rfl
    | @cons p q ps2 qs2 hpq htl =>
      by_cases heq : E.toLower p = E.toLower c
      · have heq2 : E.toLower q = E.toLower c := by rw [← hpq]; exact heq
        rw [matchLoop_hit E O rest ps2 c p rem m bs bm h heq,
          matchLoop_hit E O rest qs2 c q rem m bs bm h heq2]
        have hskip : match_ E (p :: ps2) rest O m (rem - 1) h =
            match_ E (q :: qs2) rest O m (rem - 1) h := by
          simp only [match_]
          rw [ih (p :: ps2) (q :: qs2) (rem - 1) m 0 Slice.nil h (List.Forall₂.cons hpq htl)]
        rw [hskip]
        cases match_ E (q :: qs2) rest O m (rem - 1) h with
        | none => rfl
        | some x => exact ih ps2 qs2 rem _ _ _ _ htl
      · have heq2 : ¬ E.toLower q = E.toLower c := by rw [← hpq]; exact heq
        rw [matchLoop_miss E O rest ps2 c p rem m bs bm h heq,
          matchLoop_miss E O rest qs2 c q rem m bs bm h heq2]
        exact ih (p :: ps2) (q :: qs2) rem m bs bm h (List.Forall₂.cons hpq htl)

theorem Matches_congr (E : Env) (p q str : List Rune)
    (hf : List.Forall₂ (fun a b => E.toLower a = E.toLower b) p q) :
    Matches E q str = Matches E p str := by
  simp only [Matches, MatchesIn, match_]
  rw [matchLoop_congr E str str p q _ _ _ _ _ hf]

/-- C9, as amended: replacing runes of the pattern by their upper-case or lower-case forms
changes nothing in the result of `Matches`, provided that for every rune of the pattern the
upper-case form and the lower-case form have the same lower-case form as the rune itself. -/
theorem Matches_casing_variant (E : Env) (p q str : List Rune)
    (hU : ∀ r ∈ p, E.toLower (E.toUpper r) = E.toLower r)
    (hL : ∀ r ∈ p, E.toLower (E.toLower r) = E.toLower r)
    (hv : CasingVariant E p q) : Matches E q str = Matches E p str := by
  apply Matches_congr
  unfold CasingVariant at hv
  induction hv with
  | nil => exact List.Forall₂.nil
  | @cons a b l1 l2 hab _ ih =>
    refine List.Forall₂.cons ?_
      (ih (fun r hr => hU r (List.mem_cons_of_mem _ hr))
        (fun r hr => hL r (List.mem_cons_of_mem _ hr)))
    rcases hab with rfl | rfl | rfl
    · rfl
    · exact (hU a (List.mem_cons_self _ _)).symm
    · exact (hL a (List.mem_cons_self _ _)).symm

theorem Matches_casing_variant_witness :
    Matches goEnv [65, 98, 67] [120, 97, 66, 99] = Matches goEnv [97, 66, 99] [120, 97, 66, 99] :=
  Matches_casing_variant goEnv [97, 66, 99] [65, 98, 67] [120, 97, 66, 99]
    (by decide) (by decide)
    (List.Forall₂.cons (Or.inr (Or.inl rfl))
      (List.Forall₂.cons (Or.inr (Or.inr rfl))
        (List.Forall₂.cons (Or.inr (Or.inl rfl)) List.Forall₂.nil)))

/-- C9 as stated fails: the pattern `ı` (U+0131) matches the string `ı`, its upper-case form
`I` does not, because the lower-case form of `I` is `i`. -/
theorem Matches_casing_counterexample :
    CasingVariant goEnv [0x131] [0x49] ∧
      Matches goEnv [0x131] [0x131] = some ⟨15, some [0], true⟩ ∧
      Matches goEnv [0x49] [0x131] = some ⟨0, none, false⟩ :=
  ⟨List.Forall₂.cons (Or.inr (Or.inl rfl)) List.Forall₂.nil, by decide, by decide⟩

/-! ## The score of a skip result -/

/-- C3 fails on the code: for the pattern `abcd` on `abcdx_d` the recursive call that skips
the first `d` finds `[0,1,2,6]` with score 62 and returns it in the backing array that the
caller's `matches` shares; the caller then appends index 3 in place. `Matches` returns
score 62 with the indexes `[0,1,2,3]`, to which the scoring rules assign 57. -/
theorem Matches_score_mismatch :
    Matches goEnv [97, 98, 99, 100] [97, 98, 99, 100, 120, 95, 100] =
        some ⟨62, some [0, 1, 2, 3], true⟩ ∧
      ruleScore goEnv [97, 98, 99, 100, 120, 95, 100] [0, 1, 2, 3] = 57 ∧
      ruleScore goEnv [97, 98, 99, 100, 120, 95, 100] [0, 1, 2, 6] = 62 := by
  decide

/-! ## Stability of `Rank` -/

/-- C8 fails on the code: `Rank` sorts with `sort.Sort`, which is not stable. For the pattern
`a` and twelve candidates `aa` followed by the candidate `a`, all thirteen match; `aa` scores
14 and `a` scores 15. The partition step of the library routine moves the candidate at
position 6 in front of those at positions 2 to 5, and the candidate at position 1 to the end,
although all of them have score 14. -/
theorem Rank_not_stable :
    (RankWith goEnv sortSort [97] (List.replicate 12 [97, 97] ++ [[97]])).map
        (List.map (fun e => (e.Index, e.Score))) =
      some [(12, 15), (6, 14), (2, 14), (3, 14), (4, 14), (5, 14), (0, 14), (7, 14), (8, 14),
        (9, 14), (10, 14), (11, 14), (1, 14)] := by
  decide

/-- What the documentation of `sort.Sort` promises does not make `Rank` stable: with a sorter
that keeps to it, two equal candidates can come back in reversed order. -/
theorem Rank_stability_not_from_contract :
    (Rank goEnv reversingSorter [97] [[97], [97]]).map (List.map (fun e => (e.Index, e.Score))) =
      some [(1, 15), (0, 15)] := by
  decide

/-! ## Failure of a match -/

/-- C11: a non-empty pattern does not match the empty string. -/
theorem Matches_empty_string (E : Env) (pattern : List Rune) (hne : pattern ≠ []) :
    ∃ r, Matches E pattern [] = some r ∧ r.matched = false := by
  obtain ⟨r, e, hm, -, -⟩ := Matches_spec E pattern []
  refine ⟨r, e, ?_⟩
  rw [hm]
  cases pattern with
  | nil => exact absurd rfl hne
  | cons p ps => simp [eagerMatched]

theorem Matches_empty_string_witness :
    ∃ r, Matches goEnv [97, 98, 99] [] = some r ∧ r.matched = false :=
  Matches_empty_string goEnv [97, 98, 99] (by decide)

/-- C12: `Matches` returns for every pattern and string, and whenever it reports
`matched = false` the score is 0 and the index slice is `nil`. -/
theorem Matches_failure_result (E : Env) (pattern str : List Rune) :
    ∃ r, Matches E pattern str = some r ∧
      (r.matched = false → r.score = 0 ∧ r.matchedIndexes = none) := by
  obtain ⟨r, e, -, -, hf⟩ := Matches_spec E pattern str
  refine ⟨r, e, fun h => ?_⟩
  rw [hf h]
  exact ⟨rfl, rfl⟩

/-! ## The eager alignment and ties -/

/-- C18: when `Matches` reports a match, the returned score is at least the value that the
scoring rules assign to the eager alignment, and strictly larger when the returned indexes are
not the eager alignment. -/
theorem Matches_eager_wins_ties (E : Env) (pattern str : List Rune) (score : Int)
    (idxs : List Nat) (hm : Matches E pattern str = some ⟨score, some idxs, true⟩) :
    ruleScore E str (eagerIdxs E 0 str pattern) ≤ score ∧
      (idxs ≠ eagerIdxs E 0 str pattern →
        ruleScore E str (eagerIdxs E 0 str pattern) < score) := by
  obtain ⟨r, e, -, hr, -⟩ := Matches_spec E pattern str
  rw [hm] at e
  obtain rfl := Option.some.inj e
  obtain ⟨l, hl, -, -, hle, hlt⟩ := hr rfl
  obtain rfl := Option.some.inj hl
  exact ⟨hle, hlt⟩

theorem Matches_eager_wins_ties_witness :
    Matches goEnv [88, 97, 98] [88, 121, 97, 98, 97, 98, 97, 66, 97, 98] =
        some ⟨43, some [0, 6, 7], true⟩ ∧
      eagerIdxs goEnv 0 [88, 121, 97, 98, 97, 98, 97, 66, 97, 98] [88, 97, 98] = [0, 2, 3] ∧
      ruleScore goEnv [88, 121, 97, 98, 97, 98, 97, 66, 97, 98] [0, 2, 3] = 23 ∧
      (ruleScore goEnv [88, 121, 97, 98, 97, 98, 97, 66, 97, 98]
          (eagerIdxs goEnv 0 [88, 121, 97, 98, 97, 98, 97, 66, 97, 98] [88, 97, 98]) ≤ 43 ∧
        ([0, 6, 7] ≠ eagerIdxs goEnv 0 [88, 121, 97, 98, 97, 98, 97, 66, 97, 98] [88, 97, 98] →
          ruleScore goEnv [88, 121, 97, 98, 97, 98, 97, 66, 97, 98]
            (eagerIdxs goEnv 0 [88, 121, 97, 98, 97, 98, 97, 66, 97, 98] [88, 97, 98]) < 43)) :=
  ⟨by decide, by decide, by decide,
    Matches_eager_wins_ties goEnv [88, 97, 98] [88, 121, 97, 98, 97, 98, 97, 66, 97, 98] 43
      [0, 6, 7] (by decide)⟩

/-! ## The separator bonus -/

/-- The inputs of `TestSeparatorBonus`: for every rune `sep` of the default separator set,
`Matches("Xab", "Xaxbaxba" + sep + "baxb")` is `(40, [0,1,9], true)` and `Matches("Xab",
"Xaxbaxb" + sep + sep + "a" + sep + sep + "baxb")` is `(42, [0,9,12], true)`: on these inputs
the rune after a separator earns the separator bonus once. -/
theorem Matches_separator_bonus :
    ∀ sep ∈ defaultSeparators,
      Matches goEnv [88, 97, 98]
          ([88, 97, 120, 98, 97, 120, 98, 97] ++ [sep] ++ [98, 97, 120, 98]) =
        some ⟨40, some [0, 1, 9], true⟩ ∧
      Matches goEnv [88, 97, 98]
          ([88, 97, 120, 98, 97, 120, 98] ++ [sep, sep] ++ [97] ++ [sep, sep] ++
            [98, 97, 120, 98]) =
        some ⟨42, some [0, 9, 12], true⟩ := by
  decide

theorem Matches_separator_bonus_witness :
    Matches goEnv [88, 97, 98]
          ([88, 97, 120, 98, 97, 120, 98, 97] ++ [95] ++ [98, 97, 120, 98]) =
        some ⟨40, some [0, 1, 9], true⟩ ∧
      Matches goEnv [88, 97, 98]
          ([88, 97, 120, 98, 97, 120, 98] ++ [95, 95] ++ [97] ++ [95, 95] ++
            [98, 97, 120, 98]) =
        some ⟨42, some [0, 9, 12], true⟩ :=
  Matches_separator_bonus 95 (by decide)

/-! ## The recursion budget cuts the search -/

set_option maxRecDepth 100000 in
/-- C20: for the pattern `ab` and the 60-rune string `XX`, 28 times `ab`, `aB`, `Matches`
returns the indexes `[2,3]` with score -53, although `[58,59]` is a valid alignment to which
the scoring rules assign -38. -/
theorem Matches_budget_not_optimal :
    Matches goEnv [97, 98] ([88, 88] ++ (List.replicate 28 [97, 98]).flatten ++ [97, 66]) =
        some ⟨-53, some [2, 3], true⟩ ∧
      ([88, 88] ++ (List.replicate 28 [97, 98]).flatten ++ [97, 66]).length = 60 ∧
      IsAlignment goEnv [97, 98] ([88, 88] ++ (List.replicate 28 [97, 98]).flatten ++ [97, 66])
        [58, 59] ∧
      ruleScore goEnv ([88, 88] ++ (List.replicate 28 [97, 98]).flatten ++ [97, 66]) [58, 59] =
        -38 := by
  refine ⟨by decide, by decide, ?_, by decide⟩
  apply Placed.isAlignment
  exact ⟨List.Forall₂.cons ⟨97, by decide, by decide⟩
    (List.Forall₂.cons ⟨66, by decide, by decide⟩ List.Forall₂.nil), by decide⟩

/-! ## An empty ranking -/

theorem rankEntry_eq_none_iff (E : Env) (pattern : List Rune) (i : Nat) (str : List Rune) :
    rankEntry E pattern i str = none ↔ ∃ r, Matches E pattern str = some r ∧ r.matched = false := by
  obtain ⟨r, e, -⟩ := Matches_spec E pattern str
  simp only [rankEntry, e]
  constructor
  · intro h
    refine ⟨r, rfl, ?_⟩
    by_cases hm : r.matched = true
    · simp [hm] at h
    · simpa using hm
  · rintro ⟨r2, h2, hf⟩
    obtain rfl := Option.some.inj h2
    simp [hf]

theorem filterMap_rankEntry_eq_nil_iff (E : Env) (pattern : List Rune) :
    ∀ (strings : List (List Rune)) (i : Nat),
      (strings.enumFrom i).filterMap (fun x => rankEntry E pattern x.1 x.2) = [] ↔
        ∀ s ∈ strings, ∃ r, Matches E pattern s = some r ∧ r.matched = false := by
  intro strings
  induction strings with
  | nil => intro i; simp
  | cons str rest ih =>
    intro i
    simp only [List.enumFrom_cons, List.filterMap_cons, List.mem_cons, forall_eq_or_imp]
    rw [← ih (i + 1), ← rankEntry_eq_none_iff E pattern i str]
    cases rankEntry E pattern i str with
    | none => simp
    | some v => simp

/-- C16: `Rank` returns for every pattern and every list of candidates; its result is empty
exactly when `Matches` reports `matched = false` for every candidate; in particular the result
for the empty list of candidates is empty. -/
theorem Rank_empty_iff (E : Env) (S : Sorter) (pattern : List Rune)
    (strings : List (List Rune)) :
    (∃ out, Rank E S pattern strings = some out ∧
      (out = [] ↔ ∀ s ∈ strings, ∃ r, Matches E pattern s = some r ∧ r.matched = false)) ∧
    Rank E S pattern [] = some [] := by
  have key : ∀ strs : List (List Rune), ∃ out, Rank E S pattern strs = some out ∧
      (out = [] ↔ ∀ s ∈ strs, ∃ r, Matches E pattern s = some r ∧ r.matched = false) := by
    intro strs
    obtain ⟨new, X, e, -, hnew⟩ := rankLoop_spec E pattern strs 0 [] []
    refine ⟨(S.sort new).map (Heap.view X), ?_, ?_⟩
    · simp only [Rank, RankWith, e]
      simp
    · rw [← filterMap_rankEntry_eq_nil_iff E pattern strs 0, ← hnew]
      simp only [List.nil_append, List.map_eq_nil_iff]
      constructor
      · intro h
        have := S.perm new
        rw [h] at this
        exact this.symm.eq_nil
      · intro h
        rw [h]
        exact (S.perm []).eq_nil
  refine ⟨key strings, ?_⟩
  obtain ⟨out, e, hiff⟩ := key []
  rw [e, hiff.mpr (fun s hs => by cases hs)]

/-! ## Ties between alignments of equal score -/

/-- The eager alignment is, position by position, at most any placement of the pattern in the
part of the string not yet scanned. -/
theorem eagerIdxs_le (E : Env) (O : List Rune) :
    ∀ (str pre ps : List Rune) (a : List Nat), O = pre ++ str →
      List.Forall₂ (fun i p => ∃ c, O[i]? = some c ∧ E.toLower p = E.toLower c) a ps →
      a.Pairwise (· < ·) → (∀ i ∈ a, pre.length ≤ i) →
      List.Forall₂ (· ≤ ·) (eagerIdxs E pre.length str ps) a := by
  intro str
  induction str with
  | nil =>
    intro pre ps a hO hf _ hlo
    cases hf with
    | nil => simp [eagerIdxs]
    | cons hab _ =>
      obtain ⟨c, hc, -⟩ := hab
      have h1 := (List.getElem?_eq_some_iff.mp hc).1
      have h2 := hlo _ (List.mem_cons_self _ _)
      rw [hO] at h1
      simp at h1
      omega
  | cons c rest ih =>
    intro pre ps a hO hf hpw hlo
    have hO2 : O = (pre ++ [c]) ++ rest := by simp [hO]
    have hlen2 : (pre ++ [c]).length = pre.length + 1 := by simp
    cases hf with
    | nil => simp [eagerIdxs]
    | @cons i p is ps2 hab htl =>
      have hi0 : pre.length ≤ i := hlo i (List.mem_cons_self _ _)
      by_cases heq : E.toLower p = E.toLower c
      · rw [eagerIdxs_hit E _ c p rest ps2 heq]
        refine List.Forall₂.cons hi0 ?_
        have := ih (pre ++ [c]) ps2 is hO2 htl (List.Pairwise.of_cons hpw) fun j hj => by
          have h2 := List.rel_of_pairwise_cons hpw hj
          omega
        rw [hlen2] at this
        exact this
      · rw [eagerIdxs_miss E _ c p rest ps2 heq]
        have hi : pre.length < i := by
          rcases Nat.lt_or_ge pre.length i with h | h
          · exact h
          · exfalso
            have hi : i = pre.length := le_antisymm h hi0
            obtain ⟨c2, hc2, he2⟩ := hab
            rw [hi, hO, getElem?_length_append_cons] at hc2
            rw [← Option.some.inj hc2] at he2
            exact heq he2
        have := ih (pre ++ [c]) (p :: ps2) (i :: is) hO2 (List.Forall₂.cons hab htl) hpw
          fun j hj => by
            rcases List.mem_cons.mp hj with rfl | hj
            · omega
            · have h2 := List.rel_of_pairwise_cons hpw hj
              omega
        rw [hlen2] at this
        exact this

/-- A list that is position by position at most another one is not lexicographically larger. -/
theorem not_lex_of_forall₂_le {e a : List Nat} (h : List.Forall₂ (· ≤ ·) e a) :
    ¬ List.Lex (· < ·) a e := by
  induction h with
  | nil => intro hlt; cases hlt
  | @cons x y l1 l2 hxy _ ih =>
    intro hlt
    cases hlt with
    | cons hl => exact ih hl
    | rel hyx => omega

/-- C13, as amended: when the eager alignment has exactly the returned score, `Matches` returns
the eager alignment, and no valid alignment is lexicographically smaller than it. -/
theorem Matches_tie_keeps_eager (E : Env) (pattern str : List Rune) (score : Int)
    (idxs : List Nat) (hm : Matches E pattern str = some ⟨score, some idxs, true⟩)
    (htie : ruleScore E str (eagerIdxs E 0 str pattern) = score) :
    idxs = eagerIdxs E 0 str pattern ∧
      ∀ a, IsAlignment E pattern str a → ¬ List.Lex (· < ·) a idxs := by
  obtain ⟨r, e, -, hr, -⟩ := Matches_spec E pattern str
  rw [hm] at e
  obtain rfl := Option.some.inj e
  obtain ⟨l, hl, -, -, -, hlt⟩ := hr rfl
  obtain rfl := Option.some.inj hl
  have hidx : idxs = eagerIdxs E 0 str pattern := by
    by_contra hne
    exact absurd htie (ne_of_lt (hlt hne))
  refine ⟨hidx, fun a ha => ?_⟩
  rw [hidx]
  have hp := ha.placed
  exact not_lex_of_forall₂_le
    (eagerIdxs_le E str str [] pattern a rfl hp.1 hp.2 (fun _ _ => Nat.zero_le _))

/-- The tie of the test `TestPickEarliestMatchOnTie`: the pattern `AB` on
`xAxBxBxAxBxBxAxAxBxAxB` gives the eager alignment `[1,3]` with score 15. -/
theorem Matches_tie_keeps_eager_witness :
    Matches goEnv [65, 66]
        [120, 65, 120, 66, 120, 66, 120, 65, 120, 66, 120, 66, 120, 65, 120, 65, 120, 66, 120,
          65, 120, 66] = some ⟨15, some [1, 3], true⟩ ∧
      ([1, 3] = eagerIdxs goEnv 0
          [120, 65, 120, 66, 120, 66, 120, 65, 120, 66, 120, 66, 120, 65, 120, 65, 120, 66, 120,
            65, 120, 66] [65, 66] ∧
        ∀ a, IsAlignment goEnv [65, 66]
          [120, 65, 120, 66, 120, 66, 120, 65, 120, 66, 120, 66, 120, 65, 120, 65, 120, 66, 120,
            65, 120, 66] a → ¬ List.Lex (· < ·) a [1, 3]) :=
  ⟨by decide,
    Matches_tie_keeps_eager goEnv [65, 66]
      [120, 65, 120, 66, 120, 66, 120, 65, 120, 66, 120, 66, 120, 65, 120, 65, 120, 66, 120,
        65, 120, 66] 15 [1, 3] (by decide) (by decide)⟩

/-- C13 as stated fails: for the pattern `aab` on `aaA`, eleven `b`, `_b`, the indexes
`[0,1,15]` and `[0,2,3]` both have the rule value 37. Reaching `[0,1,15]` takes eleven nested
skips of a `b`, one more than the budget allows, so it is never scored; `Matches` returns
`[0,2,3]`, which is lexicographically larger. -/
theorem Matches_tie_counterexample :
    Matches goEnv [97, 97, 98] ([97, 97, 65] ++ List.replicate 11 98 ++ [95, 98]) =
        some ⟨37, some [0, 2, 3], true⟩ ∧
      IsAlignment goEnv [97, 97, 98] ([97, 97, 65] ++ List.replicate 11 98 ++ [95, 98])
        [0, 1, 15] ∧
      ruleScore goEnv ([97, 97, 65] ++ List.replicate 11 98 ++ [95, 98]) [0, 1, 15] = 37 ∧
      List.Lex (· < ·) [0, 1, 15] [0, 2, 3] := by
  refine ⟨by decide, ?_, by decide, by decide⟩
  apply Placed.isAlignment
  exact ⟨List.Forall₂.cons ⟨97, by decide, by decide⟩
    (List.Forall₂.cons ⟨97, by decide, by decide⟩
      (List.Forall₂.cons ⟨98, by decide, by decide⟩ List.Forall₂.nil)), by decide⟩

/-- Among skip results of equal score the one found first is kept: for the pattern `ab` on
`aAbBa` the call that skips the first `a` finds `[1,3]` with score 32 before the call that
skips the first `b` finds `[0,3]`, also with score 32. `Matches` returns `[1,3]`. -/
theorem Matches_tie_between_skips :
    Matches goEnv [97, 98] [97, 65, 98, 66, 97] = some ⟨32, some [1, 3], true⟩ ∧
      IsAlignment goEnv [97, 98] [97, 65, 98, 66, 97] [0, 3] ∧
      ruleScore goEnv [97, 65, 98, 66, 97] [0, 3] = 32 ∧
      List.Lex (· < ·) [0, 3] [1, 3] := by
  refine ⟨by decide, ?_, by decide, by decide⟩
  apply Placed.isAlignment
  exact ⟨List.Forall₂.cons ⟨97, by decide, by decide⟩
    (List.Forall₂.cons ⟨66, by decide, by decide⟩ List.Forall₂.nil), by decide⟩

/-! ## One more unmatched rune at the end of the string -/

theorem bonusLoop_snoc (E : Env) (O : List Rune) (x : Rune) (d : Int) :
    ∀ (ms : List Nat) (prev : Option Nat) (s v : Int),
      bonusLoop E O prev ms s = some v → bonusLoop E (O ++ [x]) prev ms (s + d) = some (v + d) := by
  intro ms
  induction ms with
  | nil =>
    intro prev s v h
    simp only [bonusLoop, Option.some.injEq] at h ⊢
    rw [h]
  | cons i rest ih =>
    intro prev s v h
    by_cases h0 : i > 0
    · simp only [bonusLoop, h0, if_true] at h ⊢
      cases h1 : O[i - 1]? with
      | none => simp [h1] at h
      | some y1 =>
        cases h2 : O[i]? with
        | none => simp [h1, h2] at h
        | some y2 =>
          have g1 : (O ++ [x])[i - 1]? = some y1 := by
            rw [List.getElem?_append_left (List.getElem?_eq_some_iff.mp h1).1]
            exact h1
          have g2 : (O ++ [x])[i]? = some y2 := by
            rw [List.getElem?_append_left (List.getElem?_eq_some_iff.mp h2).1]
            exact h2
          simp only [h1, h2] at h
          simp only [g1, g2]
          have key := ih _ _ _ h
          cases prev <;>
            by_cases c1 : (isLower E y1 && isUpper E y2) = true <;>
            by_cases c2 : isSeparator E y1 = true <;>
            simp only [c1, c2, if_true, if_false] at key ⊢ <;>
            (try split_ifs at key ⊢) <;>
            first | exact key | (rw [← key]; congr 1; ring)
    · simp only [bonusLoop, h0, if_false] at h ⊢
      have key := ih _ _ _ h
      cases prev <;> simp only at key ⊢ <;> (try split_ifs at key ⊢) <;>
        first | exact key | (rw [← key]; congr 1; ring)

theorem eagerScore_snoc (E : Env) (O : List Rune) (x : Rune) (ms : List Nat) (v : Int)
    (h : eagerScore E O ms = some v) : eagerScore E (O ++ [x]) ms = some (v - 1) := by
  unfold eagerScore at h ⊢
  have key := bonusLoop_snoc E O x (-1) ms none _ v h
  have e : leadingPenalty ms + unmatchedRunePenalty * (((O ++ [x]).length : Int) - ms.length) =
      leadingPenalty ms + unmatchedRunePenalty * ((O.length : Int) - ms.length) + -1 := by
    simp [unmatchedRunePenalty]
    ring
  show bonusLoop E (O ++ [x]) none ms _ = some (v - 1)
  rw [e, sub_eq_add_neg]
  exact key

theorem Res.charge_fail : Res.fail.charge = Res.fail := rfl

theorem finish_snoc (E : Env) (O ps : List Rune) (x : Rune) (m : Slice) (bs bs2 : Int)
    (bm : Slice) (h h2 : Heap) (r : Res) (hb : bm.isNil = true ∨ bs2 = bs - 1)
    (hrun : finish E O ps m bs bm h = some (r, h2)) :
    finish E (O ++ [x]) ps m bs2 bm h = some (r.charge, h2) := by
  unfold finish at hrun ⊢
  by_cases hp : ps.length ≠ 0
  · rw [if_pos hp] at hrun ⊢
    simp only [Option.some.injEq, Prod.mk.injEq] at hrun ⊢
    obtain ⟨rfl, rfl⟩ := hrun
    exact ⟨rfl, rfl⟩
  · rw [if_neg hp] at hrun ⊢
    cases hsc : eagerScore E O (h.read m) with
    | none => simp [hsc] at hrun
    | some sc =>
      rw [eagerScore_snoc E O x _ sc hsc]
      simp only [hsc] at hrun
      by_cases hn : bm.isNil = true
      · simp only [hn, Bool.not_true, Bool.false_and, if_false, Option.some.injEq,
          Prod.mk.injEq, Bool.false_eq_true] at hrun ⊢
        obtain ⟨rfl, rfl⟩ := hrun
        exact ⟨by simp [Res.charge], rfl⟩
      · have hbs : bs2 = bs - 1 := by
          rcases hb with hb | hb
          · exact absurd hb hn
          · exact hb
        have hn2 : bm.isNil = false := by simpa using hn
        subst hbs
        by_cases hgt : bs > sc
        · have hgt2 : bs - 1 > sc - 1 := by omega
          simp only [hn2, hgt, hgt2, Bool.not_false, Bool.true_and, decide_True, if_true,
            Option.some.injEq, Prod.mk.injEq] at hrun ⊢
          obtain ⟨rfl, rfl⟩ := hrun
          exact ⟨by simp [Res.charge], rfl⟩
        · have hgt2 : ¬ bs - 1 > sc - 1 := by omega
          simp only [hn2, hgt, hgt2, Bool.not_false, Bool.true_and, decide_False, if_false,
            Option.some.injEq, Prod.mk.injEq, Bool.false_eq_true] at hrun ⊢
          obtain ⟨rfl, rfl⟩ := hrun
          exact ⟨by simp [Res.charge], rfl⟩

/-- A run of the loop of `match` on a string is repeated step by step on the string followed by
a rune `x` that equals no rune of the pattern up to case: the store ends up the same, the same
slice is returned, and a successful result has one point less. -/
theorem matchLoop_snoc (E : Env) (O : List Rune) (x : Rune) :
    ∀ (str ps : List Rune) (rem : Int) (m : Slice) (bs bs2 : Int) (bm : Slice) (h h2 : Heap)
      (r : Res),
      (∀ p ∈ ps, E.toLower p ≠ E.toLower x) → (bm.isNil = true ∨ bs2 = bs - 1) →
      matchLoop E O str ps rem m bs bm h = some (r, h2) →
      matchLoop E (O ++ [x]) (str ++ [x]) ps rem m bs2 bm h = some (r.charge, h2) := by
  intro str
  induction str with
  | nil =>
    intro ps rem m bs bs2 bm h h2 r hx hb hrun
    rw [matchLoop_nil] at hrun
    cases ps with
    | nil =>
      rw [List.nil_append, matchLoop_done]
      exact finish_snoc E O [] x m bs bs2 bm h h2 r hb hrun
    | cons p ps =>
      rw [List.nil_append, matchLoop_miss E _ [] ps x p rem m bs2 bm h
        (hx p (List.mem_cons_self _ _)), matchLoop_nil]
      exact finish_snoc E O (p :: ps) x m bs bs2 bm h h2 r hb hrun
  | cons c rest ih =>
    intro ps rem m bs bs2 bm h h2 r hx hb hrun
    cases ps with
    | nil =>
      rw [matchLoop_done] at hrun ⊢
      exact finish_snoc E O [] x m bs bs2 bm h h2 r hb hrun
    | cons p ps =>
      rw [List.cons_append]
      by_cases heq : E.toLower p = E.toLower c
      · rw [matchLoop_hit E O rest ps c p rem m bs bm h heq] at hrun
        rw [matchLoop_hit E (O ++ [x]) (rest ++ [x]) ps c p rem m bs2 bm h heq]
        cases hskip : match_ E (p :: ps) rest O m (rem - 1) h with
        | none => simp [hskip] at hrun
        | some sk =>
          obtain ⟨rs, h1⟩ := sk
          have hskip2 : match_ E (p :: ps) (rest ++ [x]) (O ++ [x]) m (rem - 1) h =
              some (rs.charge, h1) := by
            unfold match_ at hskip ⊢
            by_cases hr : rem - 1 < 0
            · simp only [hr, if_true, Option.some.injEq, Prod.mk.injEq] at hskip ⊢
              obtain ⟨rfl, rfl⟩ := hskip
              exact ⟨rfl, rfl⟩
            · simp only [hr, if_false] at hskip ⊢
              exact ih (p :: ps) (rem - 1) m 0 0 Slice.nil h h1 rs hx (Or.inl rfl) hskip
          simp only [hskip] at hrun
          simp only [hskip2]
          have hidx : (O ++ [x]).length - (c :: (rest ++ [x])).length =
              O.length - (c :: rest).length := by
            simp only [List.length_append, List.length_cons, List.length_nil]
            omega
          rw [hidx]
          have hx2 : ∀ q ∈ ps, E.toLower q ≠ E.toLower x :=
            fun q hq => hx q (List.mem_cons_of_mem _ hq)
          by_cases hm : rs.matched = true
          · have hcm : rs.charge.matched = true := hm
            have hcs : rs.charge.score = rs.score - 1 := by simp [Res.charge, hm]
            have hcl : rs.charge.matches_ = rs.matches_ := rfl
            simp only [hm, if_true] at hrun
            simp only [hcm, hcs, hcl, if_true]
            by_cases hn : bm.isNil = true
            · simp only [hn, Bool.true_or, if_true] at hrun ⊢
              exact ih ps rem _ _ _ _ _ _ r hx2 (Or.inr rfl) hrun
            · have hbs : bs2 = bs - 1 := by
                rcases hb with hb | hb
                · exact absurd hb hn
                · exact hb
              have hn2 : bm.isNil = false := by simpa using hn
              subst hbs
              by_cases hgt : rs.score > bs
              · have hgt2 : rs.score - 1 > bs - 1 := by omega
                simp only [hn2, hgt, hgt2, Bool.false_or, decide_True, if_true] at hrun ⊢
                exact ih ps rem _ _ _ _ _ _ r hx2 (Or.inr rfl) hrun
              · have hgt2 : ¬ rs.score - 1 > bs - 1 := by omega
                simp only [hn2, hgt, hgt2, Bool.false_or, decide_False, if_false,
                  Bool.false_eq_true] at hrun ⊢
                exact ih ps rem _ _ _ _ _ _ r hx2 (Or.inr rfl) hrun
          · have hcm : ¬ rs.charge.matched = true := hm
            simp only [hm, if_false] at hrun
            simp only [hcm, if_false]
            exact ih ps rem _ _ _ _ _ _ r hx2 hb hrun
      · rw [matchLoop_miss E O rest ps c p rem m bs bm h heq] at hrun
        rw [matchLoop_miss E (O ++ [x]) (rest ++ [x]) ps c p rem m bs2 bm h heq]
        exact ih (p :: ps) rem m bs bs2 bm h h2 r hx hb hrun

/-- C14: a rune `x` whose lower-case form differs from that of every pattern rune, added at
the end of the string, leaves the matched flag and the matched indexes of `Matches` as they
are, and takes exactly one point off the score of a successful match. -/
theorem Matches_unmatched_rune (E : Env) (pattern str : List Rune) (x : Rune)
    (hx : ∀ p ∈ pattern, E.toLower p ≠ E.toLower x) :
    ∃ r, Matches E pattern str = some r ∧
      Matches E pattern (str ++ [x]) =
        some ⟨if r.matched then r.score - 1 else r.score, r.matchedIndexes, r.matched⟩ := by
  obtain ⟨r, h2, e, -⟩ := MatchesIn_spec E pattern str []
  have e1 := e
  simp only [MatchesIn, match_] at e1
  rw [if_neg (by decide)] at e1
  have e2 := matchLoop_snoc E str x str pattern maxRecursions _ 0 0 Slice.nil _ h2 r hx
    (Or.inl rfl) e1
  have e3 : MatchesIn E pattern (str ++ [x]) [] = some (r.charge, h2) := by
    simp only [MatchesIn, match_]
    rw [if_neg (by decide)]
    exact e2
  refine ⟨⟨r.score, h2.observe r.matches_, r.matched⟩, by simp [Matches, e], ?_⟩
  simp [Matches, e3, Res.charge]

theorem Matches_unmatched_rune_witness :
    ∃ r, Matches goEnv [97, 98] [120, 97, 98] = some r ∧
      Matches goEnv [97, 98] ([120, 97, 98] ++ [99]) =
        some ⟨if r.matched then r.score - 1 else r.score, r.matchedIndexes, r.matched⟩ :=
  Matches_unmatched_rune goEnv [97, 98] [120, 97, 98] 99 (by decide)

/-! ## Nesting of the recursive calls -/

/-- Recording the calls does not change what the loop of `match` computes. -/
theorem matchLoopT_fst (E : Env) (O : List Rune) :
    ∀ (str ps : List Rune) (level : Nat) (rem : Int) (m : Slice) (bs : Int) (bm : Slice)
      (h : Heap),
      (matchLoopT E O level str ps rem m bs bm h).map Prod.fst =
        matchLoop E O str ps rem m bs bm h := by
  intro str
  induction str with
  | nil =>
    intro ps level rem m bs bm h
    simp only [matchLoopT, matchLoop_nil, Option.map_map]
    cases finish E O ps m bs bm h <;> rfl
  | cons c rest ih =>
    intro ps level rem m bs bm h
    cases ps with
    | nil =>
      simp only [matchLoopT, matchLoop_done, Option.map_map]
      cases finish E O [] m bs bm h <;> rfl
    | cons p ps =>
      by_cases heq : E.toLower p = E.toLower c
      · rw [matchLoop_hit E O rest ps c p rem m bs bm h heq, matchLoopT]
        simp only [heq, ne_eq, not_true_eq_false, if_false, match_]
        by_cases hr : rem - 1 < 0
        · simp only [hr, if_true, Option.map_map]
          rw [← ih ps level]
          cases matchLoopT E O level rest ps rem _ _ _ _ <;> rfl
        · simp only [hr, if_false]
          rw [← ih (p :: ps) (level + 1) (rem - 1) m 0 Slice.nil h]
          cases matchLoopT E O (level + 1) rest (p :: ps) (rem - 1) m 0 Slice.nil h with
          | none => rfl
          | some x =>
            obtain ⟨⟨r, h1⟩, calls⟩ := x
            simp only [Option.map_some', Option.map_map]
            rw [← ih ps level]
            cases matchLoopT E O level rest ps rem _ _ _ _ <;> rfl
      · rw [matchLoop_miss E O rest ps c p rem m bs bm h heq, matchLoopT]
        simp only [heq, ne_eq, not_false_eq_true, if_true]
        exact ih (p :: ps) level rem m bs bm h

/-- Every call made during a loop of `match` that runs at level `level` with budget
`rem ≥ 0` on the string `str` is nested deeper, has a budget that is lower by the number of
levels in between, never below -1, and a string that is shorter by at least that number. -/
theorem matchLoopT_calls (E : Env) (O : List Rune) :
    ∀ (str ps : List Rune) (level : Nat) (rem : Int) (m : Slice) (bs : Int) (bm : Slice)
      (h : Heap) (x : (Res × Heap) × List Call), 0 ≤ rem →
      matchLoopT E O level str ps rem m bs bm h = some x →
      ∀ k ∈ x.2, level < k.level ∧ k.budget = rem - ((k.level : Int) - level) ∧
        -1 ≤ k.budget ∧ (k.strLen : Int) + ((k.level : Int) - level) ≤ str.length := by
  intro str
  induction str with
  | nil =>
    intro ps level rem m bs bm h x hrem hrun k hk
    simp only [matchLoopT] at hrun
    obtain ⟨y, -, rfl⟩ := Option.map_eq_some'.mp hrun
    cases hk
  | cons c rest ih =>
    intro ps level rem m bs bm h x hrem hrun k hk
    cases ps with
    | nil =>
      simp only [matchLoopT] at hrun
      obtain ⟨y, -, rfl⟩ := Option.map_eq_some'.mp hrun
      cases hk
    | cons p ps =>
      rw [matchLoopT] at hrun
      simp only [List.length_cons, Nat.cast_add, Nat.cast_one]
      by_cases heq : E.toLower p = E.toLower c
      · simp only [heq, ne_eq, not_true_eq_false, if_false] at hrun
        have hcall : ∀ k : Call, k = ⟨level + 1, rem - 1, rest.length⟩ →
            level < k.level ∧ k.budget = rem - ((k.level : Int) - level) ∧
              -1 ≤ k.budget ∧ (k.strLen : Int) + ((k.level : Int) - level) ≤ rest.length + 1 := by
          rintro k rfl
          simp only [Nat.cast_add, Nat.cast_one]
          refine ⟨Nat.lt_succ_self _, by ring, by omega, by omega⟩
        have hcont : ∀ y : (Res × Heap) × List Call, ∀ m2 bs2 bm2 h3,
            matchLoopT E O level rest ps rem m2 bs2 bm2 h3 = some y → ∀ k ∈ y.2,
            level < k.level ∧ k.budget = rem - ((k.level : Int) - level) ∧
              -1 ≤ k.budget ∧ (k.strLen : Int) + ((k.level : Int) - level) ≤ rest.length + 1 := by
          intro y m2 bs2 bm2 h3 hl k hk
          obtain ⟨a1, a2, a3, a4⟩ := ih ps level rem m2 bs2 bm2 h3 y hrem hl k hk
          exact ⟨a1, a2, a3, by omega⟩
        by_cases hr : rem - 1 < 0
        · simp only [hr, if_true] at hrun
          obtain ⟨y, hl, rfl⟩ := Option.map_eq_some'.mp hrun
          simp only [List.singleton_append, List.mem_cons] at hk
          rcases hk with rfl | hk
          · exact hcall _ rfl
          · exact hcont y _ _ _ _ hl k hk
        · simp only [hr, if_false] at hrun
          cases hs : matchLoopT E O (level + 1) rest (p :: ps) (rem - 1) m 0 Slice.nil h with
          | none => simp [hs] at hrun
          | some sk =>
            have hsk := ih (p :: ps) (level + 1) (rem - 1) m 0 Slice.nil h sk (by omega) hs
            simp only [hs, Option.map_some'] at hrun
            obtain ⟨y, hl, rfl⟩ := Option.map_eq_some'.mp hrun
            simp only [List.cons_append, List.mem_cons, List.mem_append] at hk
            rcases hk with rfl | hk | hk
            · exact hcall _ rfl
            · obtain ⟨a1, a2, a3, a4⟩ := hsk k hk
              simp only [Nat.cast_add, Nat.cast_one] at a2 a4
              exact ⟨by omega, by omega, a3, by omega⟩
            · exact hcont y _ _ _ _ hl k hk
      · simp only [heq, ne_eq, not_false_eq_true, if_true] at hrun
        obtain ⟨a1, a2, a3, a4⟩ := ih (p :: ps) level rem m bs bm h x hrem hrun k hk
        exact ⟨a1, a2, a3, by omega⟩

/-- C17, as amended: `Matches` returns a result for every pattern and every string. Of the
calls of `match` made on the way, the one at nesting level `n` (the call made by `Matches` is
at level 1) has the budget `11 - n` and a string that is at least `n - 1` runes shorter than
the whole string. The budget is never below -1, so at most 12 calls are nested; a call that
passes the budget test is at level 11 at most, and a call at level 12 has budget -1 and
returns at once. -/
theorem Matches_terminates_nesting (E : Env) (pattern str : List Rune) :
    ∃ r calls, Matches E pattern str = some r ∧ MatchesCalls E pattern str = some calls ∧
      ∀ k ∈ calls, 1 ≤ k.level ∧ k.level ≤ 12 ∧ k.budget = 11 - (k.level : Int) ∧
        k.strLen + k.level ≤ str.length + 1 ∧ (0 ≤ k.budget → k.level ≤ 11) := by
  obtain ⟨r, e, -⟩ := Matches_spec E pattern str
  have hfst := matchLoopT_fst E str str pattern 1 maxRecursions (makeEmpty []).1 0 Slice.nil
    (makeEmpty []).2
  cases hn : matchLoopT E str 1 str pattern maxRecursions (makeEmpty []).1 0 Slice.nil
      (makeEmpty []).2 with
  | none =>
    exfalso
    rw [hn] at hfst
    simp only [Matches, MatchesIn, match_] at e
    rw [if_neg (by decide), ← hfst] at e
    simp at e
  | some x =>
    have hcalls := matchLoopT_calls E str str pattern 1 maxRecursions _ 0 Slice.nil _ x
      (by decide) hn
    refine ⟨r, ⟨1, maxRecursions, str.length⟩ :: x.2, e, ?_, ?_⟩
    · simp only [MatchesCalls]
      rw [if_neg (by decide), hn]
      rfl
    · intro k hk
      rcases List.mem_cons.mp hk with rfl | hk
      · simp only [maxRecursions]
        refine ⟨le_rfl, by omega, by norm_num, by omega, fun _ => by omega⟩
      · obtain ⟨a1, a2, a3, a4⟩ := hcalls k hk
        simp only [maxRecursions, Nat.cast_one] at a2 a4
        refine ⟨by omega, by omega, by omega, by omega, fun _ => by omega⟩

/-- C17 as stated fails: for the pattern `a` on a string of twelve `a`, each call skips the
first `a` it sees; the calls with budgets 10, 9, ..., 0 and a call with budget -1 are active at
the same time, which makes 12 nested calls. -/
theorem Matches_nesting_counterexample :
    MatchesCalls goEnv [97] (List.replicate 12 97) =
      some [⟨1, 10, 12⟩, ⟨2, 9, 11⟩, ⟨3, 8, 10⟩, ⟨4, 7, 9⟩, ⟨5, 6, 8⟩, ⟨6, 5, 7⟩, ⟨7, 4, 6⟩,
        ⟨8, 3, 5⟩, ⟨9, 2, 4⟩, ⟨10, 1, 3⟩, ⟨11, 0, 2⟩, ⟨12, -1, 1⟩] := by
  decide

/-! ## Optimality within the recursion budget -/

/-- The recursive call made at a matching rune, from a state that satisfies the invariants:
it returns, it leaves the elements of `matches` alone, and a successful result is a valid
slice with a complete placement and the rule value of a complete placement as score. -/
theorem skip_call_spec (E : Env) (O P : List Rune) (rest pre ps P1 : List Rune) (c p : Rune)
    (rem : Int) (m : Slice) (h : Heap) (hO : O = pre ++ c :: rest) (hP : P = P1 ++ p :: ps)
    (hv : h.Valid m) (hpl : Placed E O (h.read m) P1) (hlt : ∀ i ∈ h.read m, i < pre.length) :
    ∃ rs h1, match_ E (p :: ps) rest O m (rem - 1) h = some (rs, h1) ∧
      Frame h h1 m.ptr m.len ∧
      (rs.matched = true → h1.Valid rs.matches_ ∧ Placed E O (h1.read rs.matches_) P ∧
        ∃ idxs, Placed E O idxs P ∧ rs.score = ruleScore E O idxs) := by
  by_cases hr : rem - 1 < 0
  · exact ⟨Res.fail, h, by simp [match_, hr], Frame.refl _ _ _,
      fun hf => by simp [Res.fail] at hf⟩
  · have hO2 : O = (pre ++ [c]) ++ rest := by simp [hO]
    have hlt2 : ∀ i ∈ h.read m, i < (pre ++ [c]).length := fun i hi => by
      have := hlt i hi
      simp
      omega
    obtain ⟨r, h1, e, f, -, hrm, -⟩ :=
      matchLoop_spec E O P rest (pre ++ [c]) (p :: ps) P1 (rem - 1) m 0 Slice.nil h hO2 hP hv
        hpl hlt2 (Or.inl rfl)
    exact ⟨r, h1, by simp [match_, hr, e], f,
      fun ht => ⟨(hrm ht).1, (hrm ht).2.1, (hrm ht).2.2.1⟩⟩

/-- The state of the loop of `match` after a matching step satisfies the invariants again; the
best skip score kept is at least the score of a successful recursive call and at least the
best skip score kept before. -/
theorem hit_invariants (E : Env) (O P : List Rune) (rest pre ps P1 : List Rune) (c p : Rune)
    (m : Slice) (bs : Int) (bm : Slice) (h h1 : Heap) (rs : Res)
    (hO : O = pre ++ c :: rest) (hP : P = P1 ++ p :: ps)
    (hv : h.Valid m) (hpl : Placed E O (h.read m) P1) (hlt : ∀ i ∈ h.read m, i < pre.length)
    (hb : BestOk E O P h m bs bm) (heq : E.toLower p = E.toLower c)
    (f1 : Frame h h1 m.ptr m.len)
    (hr : rs.matched = true → h1.Valid rs.matches_ ∧ Placed E O (h1.read rs.matches_) P ∧
      ∃ idxs, Placed E O idxs P ∧ rs.score = ruleScore E O idxs) :
    (append E h1 m pre.length).2.Valid (append E h1 m pre.length).1 ∧
    (append E h1 m pre.length).2.read (append E h1 m pre.length).1 = h.read m ++ [pre.length] ∧
    Placed E O ((append E h1 m pre.length).2.read (append E h1 m pre.length).1) (P1 ++ [p]) ∧
    BestOk E O P (append E h1 m pre.length).2 (append E h1 m pre.length).1
      (if rs.matched then
        if bm.isNil || decide (rs.score > bs) then (rs.score, rs.matches_) else (bs, bm)
       else (bs, bm)).1
      (if rs.matched then
        if bm.isNil || decide (rs.score > bs) then (rs.score, rs.matches_) else (bs, bm)
       else (bs, bm)).2 ∧
    (rs.matched = true →
      (if rs.matched then
        if bm.isNil || decide (rs.score > bs) then (rs.score, rs.matches_) else (bs, bm)
       else (bs, bm)).2.isNil = false ∧
      rs.score ≤ (if rs.matched then
        if bm.isNil || decide (rs.score > bs) then (rs.score, rs.matches_) else (bs, bm)
       else (bs, bm)).1) ∧
    (bm.isNil = false →
      (if rs.matched then
        if bm.isNil || decide (rs.score > bs) then (rs.score, rs.matches_) else (bs, bm)
       else (bs, bm)).2.isNil = false ∧
      bs ≤ (if rs.matched then
        if bm.isNil || decide (rs.score > bs) then (rs.score, rs.matches_) else (bs, bm)
       else (bs, bm)).1) := by
  have hv1 : h1.Valid m := hv.frame f1
  have hread1 : h1.read m = h.read m := Heap.read_frame_keep hv f1 le_rfl
  have hmlen : m.len = P1.length := by rw [← hv.read_length]; exact hpl.length_eq
  have hmlt : m.len < P.length := by rw [hP, hmlen]; simp
  obtain ⟨av, -, ar, -, -⟩ := append_spec E h1 m pre.length hv1
  have hold : BestOk E O P (append E h1 m pre.length).2 (append E h1 m pre.length).1
      bs bm := by
    rcases hb with hb | ⟨hbv, hbl, hbd, hbs⟩
    · exact Or.inl hb
    · refine bestOk_append E O P h1 m bm _ bs hv1 (hbv.frame f1) hbl hmlt ?_ hbs
      by_cases hpm : bm.ptr = m.ptr
      · exact Or.inl hpm
      · rcases hbd with hbd | hbd
        · exact absurd hbd hpm
        · right
          rw [Heap.read_frame_other hbv f1 hpm]
          exact hbd
  refine ⟨av, by rw [ar, hread1], ?_, ?_, ?_, ?_⟩
  · rw [ar, hread1]
    refine hpl.snoc hlt ?_ heq
    rw [hO]
    exact getElem?_length_append_cons pre rest c
  · by_cases hrm : rs.matched = true
    · obtain ⟨hrv, hrp, hrs⟩ := hr hrm
      by_cases hcond : (bm.isNil || decide (rs.score > bs)) = true
      · simp only [hrm, hcond, if_true]
        refine bestOk_append E O P h1 m rs.matches_ _ rs.score hv1 hrv ?_ hmlt (Or.inr hrp) hrs
        rw [← hrv.read_length]
        exact hrp.length_eq
      · simp only [hrm, hcond, if_true]
        exact hold
    · simp only [hrm]
      exact hold
  · intro hrm
    obtain ⟨⟨a, hpa, -⟩, -, -⟩ := hr hrm
    by_cases hcond : (bm.isNil || decide (rs.score > bs)) = true
    · simp only [hrm, hcond, if_true]
      exact ⟨by simp [Slice.isNil, hpa], le_rfl⟩
    · simp only [hrm, hcond, if_true]
      simp only [Bool.or_eq_true, decide_eq_true_eq, not_or, not_lt] at hcond
      exact ⟨by simpa using hcond.1, hcond.2⟩
  · intro hbn
    by_cases hrm : rs.matched = true
    · obtain ⟨⟨a, hpa, -⟩, -, -⟩ := hr hrm
      by_cases hcond : (bm.isNil || decide (rs.score > bs)) = true
      · simp only [hrm, hcond, if_true]
        refine ⟨by simp [Slice.isNil, hpa], ?_⟩
        simp only [hbn, Bool.false_or, decide_eq_true_eq] at hcond
        exact le_of_lt hcond
      · simp only [hrm, hcond, if_true]
        exact ⟨hbn, le_rfl⟩
    · simp only [hrm]
      exact ⟨hbn, le_rfl⟩

/-- What `match` returns after its loop is at least the score of the eager match and at least
the best skip score, if there is one. -/
theorem finish_ge (E : Env) (O : List Rune) (m : Slice) (bs : Int) (bm : Slice) (h h2 : Heap)
    (r : Res) (sc : Int) (hsc : eagerScore E O (h.read m) = some sc)
    (hrun : finish E O [] m bs bm h = some (r, h2)) :
    sc ≤ r.score ∧ (bm.isNil = false → bs ≤ r.score) := by
  simp only [finish, List.length_nil, ne_eq, not_true_eq_false, if_false, hsc] at hrun
  by_cases hw : (!bm.isNil && decide (bs > sc)) = true
  · rw [if_pos hw] at hrun
    simp only [Option.some.injEq, Prod.mk.injEq] at hrun
    obtain ⟨rfl, -⟩ := hrun
    simp only [Bool.and_eq_true, decide_eq_true_eq] at hw
    exact ⟨le_of_lt hw.2, fun _ => le_rfl⟩
  · rw [if_neg hw] at hrun
    simp only [Option.some.injEq, Prod.mk.injEq] at hrun
    obtain ⟨rfl, -⟩ := hrun
    refine ⟨le_rfl, fun hn => ?_⟩
    simp only [hn, Bool.not_false, Bool.true_and, decide_eq_true_eq, not_lt] at hw
    exact hw

/-- Strictly increasing numbers from `lo` up to but not including `hi` are at most `hi - lo`
many. -/
theorem length_le_of_pairwise_lt :
    ∀ (l : List Nat) (lo hi : Nat), l.Pairwise (· < ·) → (∀ i ∈ l, lo ≤ i ∧ i < hi) →
      l.length ≤ hi - lo := by
  intro l
  induction l with
  | nil => intro lo hi _ _; simp
  | cons a rest ih =>
    intro lo hi hp hb
    have ha := hb a (List.mem_cons_self _ _)
    have := ih (a + 1) hi (List.Pairwise.of_cons hp) fun i hi2 =>
      ⟨List.rel_of_pairwise_cons hp hi2, (hb i (List.mem_cons_of_mem _ hi2)).2⟩
    simp only [List.length_cons]
    omega

/-- While the budget covers the runes that can still be skipped (`len(str) <= len(pattern) +
remainingRecursions`), the score returned by the loop of `match` is at least the best skip
score kept so far and at least the rule value of every way of placing the rest of the pattern
in the rest of the string. -/
theorem matchLoop_optimal (E : Env) (O P : List Rune) :
    ∀ (str pre ps P1 : List Rune) (rem : Int) (m : Slice) (bs : Int) (bm : Slice) (h : Heap)
      (r : Res) (h2 : Heap),
      O = pre ++ str → P = P1 ++ ps → h.Valid m → Placed E O (h.read m) P1 →
      (∀ i ∈ h.read m, i < pre.length) → BestOk E O P h m bs bm →
      0 ≤ rem → (str.length : Int) ≤ ps.length + rem →
      matchLoop E O str ps rem m bs bm h = some (r, h2) →
      (bm.isNil = false → r.matched = true → bs ≤ r.score) ∧
      (∀ tail : List Nat,
        List.Forall₂ (fun i p => ∃ c, O[i]? = some c ∧ E.toLower p = E.toLower c) tail ps →
        tail.Pairwise (· < ·) → (∀ i ∈ tail, pre.length ≤ i) →
        ruleScore E O (h.read m ++ tail) ≤ r.score) := by
  intro str
  induction str with
  | nil =>
    intro pre ps P1 rem m bs bm h r h2 hO hP hv hpl hlt hb hrem hbud hrun
    rw [matchLoop_nil] at hrun
    cases ps with
    | nil =>
      rw [List.append_nil] at hP
      subst hP
      have hsc := eagerScore_eq_ruleScore E O (h.read m) hpl.lt_length hpl.2
      obtain ⟨g1, g2⟩ := finish_ge E O m bs bm h h2 r _ hsc hrun
      refine ⟨fun hn _ => g2 hn, fun tail hf _ _ => ?_⟩
      cases hf
      simpa using g1
    | cons p ps =>
      rw [finish_fail] at hrun
      simp only [Option.some.injEq, Prod.mk.injEq] at hrun
      obtain ⟨rfl, -⟩ := hrun
      refine ⟨fun _ hm => by simp [Res.fail] at hm, fun tail hf _ hlo => ?_⟩
      exfalso
      cases hf with
      | cons hab _ =>
        obtain ⟨c, hc, -⟩ := hab
        have h1 := (List.getElem?_eq_some_iff.mp hc).1
        have h2 := hlo _ (List.mem_cons_self _ _)
        rw [hO] at h1
        simp at h1
        omega
  | cons c rest ih =>
    intro pre ps P1 rem m bs bm h r h2 hO hP hv hpl hlt hb hrem hbud hrun
    cases ps with
    | nil =>
      rw [matchLoop_done] at hrun
      rw [List.append_nil] at hP
      subst hP
      have hsc := eagerScore_eq_ruleScore E O (h.read m) hpl.lt_length hpl.2
      obtain ⟨g1, g2⟩ := finish_ge E O m bs bm h h2 r _ hsc hrun
      refine ⟨fun hn _ => g2 hn, fun tail hf _ _ => ?_⟩
      cases hf
      simpa using g1
    | cons p ps =>
      have hO2 : O = (pre ++ [c]) ++ rest := by simp [hO]
      have hlen2 : (pre ++ [c]).length = pre.length + 1 := by simp
      have hOlen : O.length = pre.length + 1 + rest.length := by rw [hO]; simp; omega
      have hlt2 : ∀ i ∈ h.read m, i < (pre ++ [c]).length := fun i hi => by
        have := hlt i hi
        omega
      simp only [List.length_cons] at hbud
      -- the flag of this run
      have hmatched : ∀ tail : List Nat,
          List.Forall₂ (fun i p => ∃ c, O[i]? = some c ∧ E.toLower p = E.toLower c) tail
            (p :: ps) →
          tail.Pairwise (· < ·) → (∀ i ∈ tail, pre.length ≤ i) → r.matched = true := by
        intro tail hf hpw hlo
        obtain ⟨r0, h0, e0, -, hm0, -, -⟩ :=
          matchLoop_spec E O P (c :: rest) pre (p :: ps) P1 rem m bs bm h hO hP hv hpl hlt hb
        rw [hrun] at e0
        simp only [Option.some.injEq, Prod.mk.injEq] at e0
        obtain ⟨rfl, -⟩ := e0
        rw [hm0]
        exact eagerMatched_of_forall₂ E O (c :: rest) pre (p :: ps) tail hO hf hpw hlo
      by_cases heq : E.toLower p = E.toLower c
      · obtain ⟨rs, h1, e1, f1, hr⟩ :=
          skip_call_spec E O P rest pre ps P1 c p rem m h hO hP hv hpl hlt
        have hidx : O.length - (c :: rest).length = pre.length := by
          rw [hO]; simp
        rw [matchLoop_hit E O rest ps c p rem m bs bm h heq, e1] at hrun
        simp only [hidx] at hrun
        obtain ⟨av, ar, hpl2, hbest, hskipge, holdge⟩ :=
          hit_invariants E O P rest pre ps P1 c p m bs bm h h1 rs hO hP hv hpl hlt hb heq f1 hr
        have hlt3 : ∀ i ∈ (append E h1 m pre.length).2.read (append E h1 m pre.length).1,
            i < (pre ++ [c]).length := by
          intro i hi
          rw [ar, List.mem_append] at hi
          rcases hi with hi | hi
          · exact hlt2 i hi
          · rw [List.mem_singleton] at hi
            omega
        obtain ⟨c1, c2⟩ :=
          ih (pre ++ [c]) ps (P1 ++ [p]) rem (append E h1 m pre.length).1 _ _
            (append E h1 m pre.length).2 r h2 hO2 (by simp [hP]) av hpl2 hlt3 hbest hrem
            (by omega) hrun
        refine ⟨fun hn hm => le_trans (holdge hn).2 (c1 (holdge hn).1 hm),
          fun tail hf hpw hlo => ?_⟩
        have hrm : r.matched = true := hmatched tail hf hpw hlo
        cases hf with
        | @cons i _ tl _ hab htl =>
          have hi0 : pre.length ≤ i := hlo i (List.mem_cons_self _ _)
          have htlgt : ∀ j ∈ tl, i < j := fun j hj => List.rel_of_pairwise_cons hpw hj
          by_cases hi : i = pre.length
          · -- this occurrence is used
            have := c2 tl htl (List.Pairwise.of_cons hpw) fun j hj => by
              have := htlgt j hj
              omega
            rw [ar] at this
            simpa [hi] using this
          · -- this occurrence is skipped
            have hlo2 : ∀ j ∈ i :: tl, (pre ++ [c]).length ≤ j := by
              intro j hj
              rcases List.mem_cons.mp hj with rfl | hj
              · omega
              · have := htlgt j hj
                omega
            by_cases hr0 : rem - 1 < 0
            · exfalso
              have hcount := length_le_of_pairwise_lt (i :: tl) (pre.length + 1) O.length hpw
                fun j hj => by
                  have hP2 : Placed E O (i :: tl) (p :: ps) := ⟨List.Forall₂.cons hab htl, hpw⟩
                  have := hlo2 j hj
                  exact ⟨by omega, hP2.lt_length j hj⟩
              have hfl := htl.length_eq
              simp only [List.length_cons] at hcount
              omega
            · have e1b : matchLoop E O rest (p :: ps) (rem - 1) m 0 Slice.nil h =
                  some (rs, h1) := by
                simpa [match_, hr0] using e1
              obtain ⟨-, s2⟩ :=
                ih (pre ++ [c]) (p :: ps) P1 (rem - 1) m 0 Slice.nil h rs h1 hO2 hP hv hpl hlt2
                  (Or.inl rfl) (by omega) (by simp only [List.length_cons]; push_cast; omega)
                  e1b
              have hval := s2 (i :: tl) (List.Forall₂.cons hab htl) hpw hlo2
              have hrsm : rs.matched = true := by
                obtain ⟨r0, h0, e0, -, hm0, -, -⟩ :=
                  matchLoop_spec E O P rest (pre ++ [c]) (p :: ps) P1 (rem - 1) m 0 Slice.nil h
                    hO2 hP hv hpl hlt2 (Or.inl rfl)
                rw [e1b] at e0
                simp only [Option.some.injEq, Prod.mk.injEq] at e0
                obtain ⟨rfl, -⟩ := e0
                rw [hm0]
                exact eagerMatched_of_forall₂ E O rest (pre ++ [c]) (p :: ps) (i :: tl) hO2
                  (List.Forall₂.cons hab htl) hpw hlo2
              obtain ⟨k1, k2⟩ := hskipge hrsm
              exact le_trans hval (le_trans k2 (c1 k1 hrm))
      · rw [matchLoop_miss E O rest ps c p rem m bs bm h heq] at hrun
        obtain ⟨c1, c2⟩ :=
          ih (pre ++ [c]) (p :: ps) P1 rem m bs bm h r h2 hO2 hP hv hpl hlt2 hb hrem
            (by simp only [List.length_cons]; push_cast; omega) hrun
        refine ⟨c1, fun tail hf hpw hlo => c2 tail hf hpw fun j hj => ?_⟩
        cases hf with
        | @cons i _ tl _ hab htl =>
          have hi0 : pre.length ≤ i := hlo i (List.mem_cons_self _ _)
          have hi : pre.length < i := by
            rcases Nat.lt_or_ge pre.length i with h | h
            · exact h
            · exfalso
              have hi : i = pre.length := le_antisymm h hi0
              obtain ⟨c2, hc2, he2⟩ := hab
              rw [hi, hO, getElem?_length_append_cons] at hc2
              rw [← Option.some.inj hc2] at he2
              exact heq he2
          rcases List.mem_cons.mp hj with rfl | hj
          · omega
          · have := List.rel_of_pairwise_cons hpw hj
            omega

/-- C19: for a string with at most 10 runes more than the pattern, the score that `Matches`
returns with a match is at least the value that the scoring rules assign to any valid
alignment of the pattern in the string. -/
theorem Matches_optimal_within_budget (E : Env) (pattern str : List Rune) (score : Int)
    (idxs : Option (List Nat)) (hlen : str.length ≤ pattern.length + 10)
    (hm : Matches E pattern str = some ⟨score, idxs, true⟩) :
    ∀ a, IsAlignment E pattern str a → ruleScore E str a ≤ score := by
  intro a ha
  have hp := ha.placed
  cases hin : MatchesIn E pattern str [] with
  | none => simp [Matches, hin] at hm
  | some x =>
    obtain ⟨r, h2⟩ := x
    simp only [Matches, hin, Option.some.injEq, MatchResult.mk.injEq] at hm
    obtain ⟨hsc, -, -⟩ := hm
    simp only [MatchesIn, match_] at hin
    rw [if_neg (by decide)] at hin
    have hv : (makeEmpty []).2.Valid (makeEmpty []).1 :=
      ⟨0, rfl, by simp [makeEmpty], by simp [makeEmpty, Heap.array, List.getD], le_rfl⟩
    have hread : (makeEmpty []).2.read (makeEmpty []).1 = [] := by
      simp [makeEmpty, Heap.read]
    obtain ⟨-, hopt⟩ :=
      matchLoop_optimal E str pattern str [] pattern [] maxRecursions (makeEmpty []).1 0
        Slice.nil (makeEmpty []).2 r h2 rfl rfl hv
        (by rw [hread]; exact ⟨List.Forall₂.nil, List.Pairwise.nil⟩)
        (by rw [hread]; intro i hi; cases hi) (Or.inl rfl) (by decide)
        (by simp only [maxRecursions]; omega) hin
    have := hopt a hp.1 hp.2 (fun _ _ => Nat.zero_le _)
    rw [hread, List.nil_append, hsc] at this
    exact this

theorem Matches_optimal_within_budget_witness :
    Matches goEnv [88, 97, 98] [88, 121, 97, 98, 97, 98, 97, 66, 97, 98] =
        some ⟨43, some [0, 6, 7], true⟩ ∧
      ∀ a, IsAlignment goEnv [88, 97, 98] [88, 121, 97, 98, 97, 98, 97, 66, 97, 98] a →
        ruleScore goEnv [88, 121, 97, 98, 97, 98, 97, 66, 97, 98] a ≤ 43 :=
  ⟨by decide,
    Matches_optimal_within_budget goEnv [88, 97, 98] [88, 121, 97, 98, 97, 98, 97, 66, 97, 98]
      43 (some [0, 6, 7]) (by decide) (by decide)⟩

/-! ## Score and indexes of one alignment, while `append` has no spare capacity -/

/-- An `append` to a slice that is full allocates: no array of the store is written, and the
new slice has the capacity chosen by the runtime. -/
theorem append_full (E : Env) (h : Heap) (m : Slice) (x : Nat) (hv : h.Valid m)
    (hcap : m.cap = m.len) :
    Frame h (append E h m x).2 none 0 ∧
      (append E h m x).1.len = m.len + 1 ∧
      (append E h m x).1.cap = max (m.len + 1) (E.grow m.len) := by
  obtain ⟨a, hp, ha, hl, hc⟩ := hv
  have e : append E h m x = appendAlloc E h m x := by
    simp [append, hp, hcap]
  rw [e]
  refine ⟨⟨by simp [appendAlloc], fun b hb => ?_⟩, rfl, by simp [appendAlloc, hcap]⟩
  simp only [appendAlloc, Heap.array_append_left h _ b hb]
  exact ⟨trivial, fun _ => trivial, trivial⟩

/-- The end of `match` when the kept skip result, if any, has the score of its own elements:
the returned score is the rule value of the returned elements. -/
theorem finish_exact (E : Env) (O : List Rune) (m : Slice) (bs : Int) (bm : Slice)
    (h h2 : Heap) (r : Res)
    (hsc : eagerScore E O (h.read m) = some (ruleScore E O (h.read m)))
    (hbe : bm.isNil = false → bs = ruleScore E O (h.read bm))
    (hrun : finish E O [] m bs bm h = some (r, h2)) :
    h2 = h ∧ r.score = ruleScore E O (h.read r.matches_) := by
  simp only [finish, List.length_nil, ne_eq, not_true_eq_false, if_false, hsc] at hrun
  by_cases hw : (!bm.isNil && decide (bs > ruleScore E O (h.read m))) = true
  · rw [if_pos hw] at hrun
    simp only [Option.some.injEq, Prod.mk.injEq] at hrun
    obtain ⟨rfl, rfl⟩ := hrun
    simp only [Bool.and_eq_true, Bool.not_eq_true', decide_eq_true_eq] at hw
    exact ⟨rfl, hbe hw.1⟩
  · rw [if_neg hw] at hrun
    simp only [Option.some.injEq, Prod.mk.injEq] at hrun
    obtain ⟨rfl, rfl⟩ := hrun
    exact ⟨rfl, rfl⟩

/-- While every slice that `match` appends to is full (the runtime gives an array of `k + 1`
elements when it grows one of `k`, for every `k` below the pattern length minus one), every
`append` of the loop allocates. No array is written after its allocation, a kept skip result
keeps the elements it was scored on, and the score returned by the loop is the rule value of
the elements of the returned slice. -/
theorem matchLoop_exact (E : Env) (O P : List Rune)
    (hg : ∀ k, k + 1 < P.length → E.grow k ≤ k + 1) :
    ∀ (str pre ps P1 : List Rune) (rem : Int) (m : Slice) (bs : Int) (bm : Slice) (h : Heap)
      (r : Res) (h2 : Heap),
      O = pre ++ str → P = P1 ++ ps → h.Valid m → Placed E O (h.read m) P1 →
      (∀ i ∈ h.read m, i < pre.length) → BestOk E O P h m bs bm →
      (m.len < P.length → m.cap = m.len) →
      (bm.isNil = false → h.Valid bm ∧ bs = ruleScore E O (h.read bm)) →
      matchLoop E O str ps rem m bs bm h = some (r, h2) →
      Frame h h2 none 0 ∧
        (r.matched = true → r.score = ruleScore E O (h2.read r.matches_)) := by
  intro str
  induction str with
  | nil =>
    intro pre ps P1 rem m bs bm h r h2 hO hP hv hpl hlt hb htight hbe hrun
    rw [matchLoop_nil] at hrun
    cases ps with
    | nil =>
      rw [List.append_nil] at hP
      subst hP
      have hsc := eagerScore_eq_ruleScore E O (h.read m) hpl.lt_length hpl.2
      obtain ⟨rfl, hs⟩ := finish_exact E O m bs bm h h2 r hsc (fun hn => (hbe hn).2) hrun
      exact ⟨Frame.refl _ _ _, fun _ => hs⟩
    | cons p ps =>
      rw [finish_fail] at hrun
      simp only [Option.some.injEq, Prod.mk.injEq] at hrun
      obtain ⟨rfl, rfl⟩ := hrun
      exact ⟨Frame.refl _ _ _, fun hm => by simp [Res.fail] at hm⟩
  | cons c rest ih =>
    intro pre ps P1 rem m bs bm h r h2 hO hP hv hpl hlt hb htight hbe hrun
    cases ps with
    | nil =>
      rw [matchLoop_done] at hrun
      rw [List.append_nil] at hP
      subst hP
      have hsc := eagerScore_eq_ruleScore E O (h.read m) hpl.lt_length hpl.2
      obtain ⟨rfl, hs⟩ := finish_exact E O m bs bm h h2 r hsc (fun hn => (hbe hn).2) hrun
      exact ⟨Frame.refl _ _ _, fun _ => hs⟩
    | cons p ps =>
      have hO2 : O = (pre ++ [c]) ++ rest := by simp [hO]
      have hlt2 : ∀ i ∈ h.read m, i < (pre ++ [c]).length := fun i hi => by
        have := hlt i hi
        simp
        omega
      by_cases heq : E.toLower p = E.toLower c
      · obtain ⟨rs, h1, e1, f1, hr⟩ :=
          skip_call_spec E O P rest pre ps P1 c p rem m h hO hP hv hpl hlt
        have hidx : O.length - (c :: rest).length = pre.length := by
          rw [hO]; simp
        rw [matchLoop_hit E O rest ps c p rem m bs bm h heq, e1] at hrun
        simp only [hidx] at hrun
        obtain ⟨av, ar, hpl2, hbest, -, -⟩ :=
          hit_invariants E O P rest pre ps P1 c p m bs bm h h1 rs hO hP hv hpl hlt hb heq f1 hr
        -- the recursive call
        have hskip : Frame h h1 none 0 ∧
            (rs.matched = true → rs.score = ruleScore E O (h1.read rs.matches_)) := by
          by_cases hr0 : rem - 1 < 0
          · have e0 : (rs, h1) = (Res.fail, h) := by
              have := e1
              simp only [match_, hr0, if_true, Option.some.injEq] at this
              exact this.symm
            simp only [Prod.mk.injEq] at e0
            obtain ⟨rfl, rfl⟩ := e0
            exact ⟨Frame.refl _ _ _, fun hm => by simp [Res.fail] at hm⟩
          · have e1b : matchLoop E O rest (p :: ps) (rem - 1) m 0 Slice.nil h =
                some (rs, h1) := by
              simpa [match_, hr0] using e1
            exact ih (pre ++ [c]) (p :: ps) P1 (rem - 1) m 0 Slice.nil h rs h1 hO2 hP hv hpl
              hlt2 (Or.inl rfl) htight (fun hn => by simp [Slice.isNil, Slice.nil] at hn) e1b
        obtain ⟨fs, hrs⟩ := hskip
        -- the append
        have hmlen : m.len = P1.length := by rw [← hv.read_length]; exact hpl.length_eq
        have hmlt : m.len < P.length := by rw [hP, hmlen]; simp
        have hv1 : h1.Valid m := hv.frame f1
        obtain ⟨fa, alen, acap⟩ := append_full E h1 m pre.length hv1 (htight hmlt)
        have htight2 : (append E h1 m pre.length).1.len < P.length →
            (append E h1 m pre.length).1.cap = (append E h1 m pre.length).1.len := by
          intro hl
          rw [alen] at hl
          rw [acap, alen]
          exact max_eq_left (hg m.len hl)
        have hlt3 : ∀ i ∈ (append E h1 m pre.length).2.read (append E h1 m pre.length).1,
            i < (pre ++ [c]).length := by
          intro i hi
          rw [ar, List.mem_append] at hi
          rcases hi with hi | hi
          · exact hlt2 i hi
          · rw [List.mem_singleton] at hi
            simp
            omega
        -- the kept skip result
        have hold : bm.isNil = false →
            (append E h1 m pre.length).2.Valid bm ∧
              bs = ruleScore E O ((append E h1 m pre.length).2.read bm) := by
          intro hn
          obtain ⟨hbv, hbs⟩ := hbe hn
          have hnp : bm.ptr ≠ none := by
            intro e
            simp [Slice.isNil, e] at hn
          refine ⟨(hbv.frame fs).frame fa, ?_⟩
          rw [Heap.read_frame_other (hbv.frame fs) fa hnp, Heap.read_frame_other hbv fs hnp]
          exact hbs
        have hnew : rs.matched = true →
            (append E h1 m pre.length).2.Valid rs.matches_ ∧
              rs.score = ruleScore E O ((append E h1 m pre.length).2.read rs.matches_) := by
          intro hm
          obtain ⟨hrv, -, -⟩ := hr hm
          have hnp : rs.matches_.ptr ≠ none := by
            obtain ⟨a, hpa, -⟩ := hrv
            rw [hpa]
            exact Option.some_ne_none a
          refine ⟨hrv.frame fa, ?_⟩
          rw [Heap.read_frame_other hrv fa hnp]
          exact hrs hm
        have hbe2 :
            (if rs.matched then
              if bm.isNil || decide (rs.score > bs) then (rs.score, rs.matches_) else (bs, bm)
             else (bs, bm)).2.isNil = false →
            (append E h1 m pre.length).2.Valid
                (if rs.matched then
                  if bm.isNil || decide (rs.score > bs) then (rs.score, rs.matches_)
                  else (bs, bm)
                 else (bs, bm)).2 ∧
              (if rs.matched then
                if bm.isNil || decide (rs.score > bs) then (rs.score, rs.matches_) else (bs, bm)
               else (bs, bm)).1 =
                ruleScore E O ((append E h1 m pre.length).2.read
                  (if rs.matched then
                    if bm.isNil || decide (rs.score > bs) then (rs.score, rs.matches_)
                    else (bs, bm)
                   else (bs, bm)).2) := by
          by_cases hrm : rs.matched = true
          · by_cases hcond : (bm.isNil || decide (rs.score > bs)) = true
            · simp only [hrm, hcond, if_true]
              exact fun _ => hnew hrm
            · simp only [hrm, hcond, if_true]
              exact hold
          · simp only [hrm]
            exact hold
        obtain ⟨f2, hres⟩ :=
          ih (pre ++ [c]) ps (P1 ++ [p]) rem (append E h1 m pre.length).1 _ _
            (append E h1 m pre.length).2 r h2 hO2 (by simp [hP]) av hpl2 hlt3 hbest htight2
            hbe2 hrun
        exact ⟨Frame.trans (Frame.trans fs fa (Or.inl ⟨rfl, le_rfl⟩)) f2 (Or.inl ⟨rfl, le_rfl⟩),
          hres⟩
      · rw [matchLoop_miss E O rest ps c p rem m bs bm h heq] at hrun
        exact ih (pre ++ [c]) (p :: ps) P1 rem m bs bm h r h2 hO2 hP hv hpl hlt2 hb htight hbe
          hrun

/-- While `append` gets no spare capacity before the pattern is used up, the score that
`Matches` returns with a match is the value that the scoring rules assign to the returned
indexes, which are a valid alignment: among others `+20`, once, for every returned index whose
left neighbour is one of the separators. -/
theorem Matches_score_of_indexes (E : Env) (pattern str : List Rune)
    (hg : ∀ k, k + 1 < pattern.length → E.grow k ≤ k + 1) :
    ∃ r, Matches E pattern str = some r ∧
      (r.matched = true →
        ∃ idxs, r.matchedIndexes = some idxs ∧ IsAlignment E pattern str idxs ∧
          r.score = ruleScore E str idxs) := by
  have hv : (makeEmpty []).2.Valid (makeEmpty []).1 :=
    ⟨0, rfl, by simp [makeEmpty], by simp [makeEmpty, Heap.array], le_rfl⟩
  have hread : (makeEmpty []).2.read (makeEmpty []).1 = [] := by
    simp [makeEmpty, Heap.read]
  obtain ⟨r, h2, e, -, hr, -⟩ := MatchesIn_spec E pattern str []
  have e2 : matchLoop E str str pattern maxRecursions (makeEmpty []).1 0 Slice.nil
      (makeEmpty []).2 = some (r, h2) := by
    have := e
    simp only [MatchesIn, match_] at this
    rw [if_neg (by decide)] at this
    exact this
  obtain ⟨-, hs⟩ :=
    matchLoop_exact E str pattern hg str [] pattern [] maxRecursions (makeEmpty []).1 0
      Slice.nil (makeEmpty []).2 r h2 rfl rfl hv
      (by rw [hread]; exact ⟨List.Forall₂.nil, List.Pairwise.nil⟩)
      (by rw [hread]; intro i hi; cases hi) (Or.inl rfl) (fun _ => rfl)
      (fun hn => by simp [Slice.isNil, Slice.nil] at hn) e2
  refine ⟨⟨r.score, h2.observe r.matches_, r.matched⟩, by simp [Matches, e], fun ht => ?_⟩
  obtain ⟨⟨a, hp, -⟩, hpl, -⟩ := hr ht
  exact ⟨h2.read r.matches_, by simp [Heap.observe, Slice.isNil, hp], hpl.isAlignment, hs ht⟩

/-- With the capacities of the Go runtime (1, 2, 4, ...) this covers the patterns of at most
three runes. -/
theorem Matches_score_of_indexes_short (pattern str : List Rune) (hlen : pattern.length ≤ 3) :
    ∃ r, Matches goEnv pattern str = some r ∧
      (r.matched = true →
        ∃ idxs, r.matchedIndexes = some idxs ∧ IsAlignment goEnv pattern str idxs ∧
          r.score = ruleScore goEnv str idxs) := by
  apply Matches_score_of_indexes
  intro k hk
  show 2 * k ≤ k + 1
  omega

/-! ## The separator bonus and the indexes of a skip result -/

/-- C15 fails on the code: for the pattern `abcdefg` on `abcde_f_g_fG`, `Matches` returns the
indexes `[0,1,2,3,4,6,8]` with the score 125. The runes at 6 and 8 each follow the separator
`_`, and the scoring rules, with the separator bonus once for each of the two, assign 110 to
these indexes. The score 125 is the value of `[0,1,2,3,4,10,11]`, in which only the rune at 10
follows a separator: the recursive call that skips the first `f` found it and wrote 10 and 11
into the backing array it shares with the caller's `matches`, and the caller then appended 6
and 8 in place. -/
theorem Matches_separator_bonus_mismatch :
    Matches goEnv [97, 98, 99, 100, 101, 102, 103]
        [97, 98, 99, 100, 101, 95, 102, 95, 103, 95, 102, 71] =
        some ⟨125, some [0, 1, 2, 3, 4, 6, 8], true⟩ ∧
      [0, 1, 2, 3, 4, 6, 8].filter (fun i => decide (i > 0) && isSeparator goEnv
        (([97, 98, 99, 100, 101, 95, 102, 95, 103, 95, 102, 71] : List Rune).getD (i - 1) 0)) =
        [6, 8] ∧
      ruleScore goEnv [97, 98, 99, 100, 101, 95, 102, 95, 103, 95, 102, 71]
        [0, 1, 2, 3, 4, 6, 8] = 110 ∧
      [0, 1, 2, 3, 4, 10, 11].filter (fun i => decide (i > 0) && isSeparator goEnv
        (([97, 98, 99, 100, 101, 95, 102, 95, 103, 95, 102, 71] : List Rune).getD (i - 1) 0)) =
        [10] ∧
      ruleScore goEnv [97, 98, 99, 100, 101, 95, 102, 95, 103, 95, 102, 71]
        [0, 1, 2, 3, 4, 10, 11] = 125 := by
  decide

end Fuzzy
